import Mathlib

/-!
# A verification of the txtar archive package

This file gives a shallow embedding, in Lean 4, of the core of the
`txtar` Go package (an extended reimplementation of
`golang.org/x/tools/txtar`): the marker scanner (`findFileMarker` /
`isMarker`), the parser (`Parse`), the serializer (`Archive.String`)
and the name-keyed archive store (`Has` / `Write` / `Add` / `Read` /
`Delete` / `Size` / `Equal`), together with proofs of the package's
stated properties (round-trip, normalization invariants, error
behaviour, ordering, termination of the scanner).

Modelling conventions:

* Go byte slices and strings both become `List Char`; the archives in
  scope are text, and every byte the package's own code inspects is
  ASCII.  `bytes.TrimSpace` / `strings.TrimSpace` are modelled with the
  ASCII white-space set (space, `\t`, `\n`, `\v`, `\f`, `\r`), which is
  exactly Go's behaviour on ASCII input.
* A Go `nil` byte slice is `Option.none` where the code distinguishes
  `nil` from empty (the scanner's `after` result); elsewhere `nil` and
  empty coincide and both are `[]`.
* The Go `map[string][]byte` becomes an association list with the usual
  get/insert/erase operations; `Size` is its length.  Every archive the
  package can actually build has distinct keys, and theorems that need
  that fact carry it as a hypothesis.
* Fallible operations return `Except (List Char) _` carrying the exact
  error message the Go code formats.
* The repository's history contains two coherent variants of the store:
  the `Write`-based one (nil-safe pointer receivers, contents stored as
  `fixNL (TrimSpace c)`, parser normalizes CRLF and rejects unterminated
  markers) and the earlier `Add`-based one (contents stored as
  `TrimSpace c` only, parser without the CRLF / unterminated steps).
  The former is embedded in namespace `Txtar`, the latter's differing
  functions in namespace `TxtarAdd`; the scanner is byte-for-byte the
  same in both and is shared.
-/

namespace Txtar

/-- ASCII white space, the set Go's `TrimSpace` strips on ASCII input:
space, horizontal tab, newline, vertical tab, form feed, carriage return. -/
def isSpace (c : Char) : Bool :=
  c = ' ' || c = '\t' || c = '\n' || c = '\x0b' || c = '\x0c' || c = '\r'

/-- Go `bytes.TrimSpace` / `strings.TrimSpace` on ASCII input: drop white
space from both ends. -/
def TrimSpace (s : List Char) : List Char :=
  ((s.dropWhile isSpace).reverse.dropWhile isSpace).reverse

/-- Go `fixNL`: if data is empty or ends in a newline return it unchanged,
otherwise append one newline. -/
def fixNL (data : List Char) : List Char :=
  if data = [] ∨ data.getLast? = some '\n' then data else data ++ ['\n']

/-- Go `bytes.ReplaceAll(data, []byte("\r\n"), []byte("\n"))`: replace each
(leftmost, non-overlapping) CR-LF pair by a lone LF in one pass. -/
def replaceCRLF : List Char → List Char
  | [] => []
  | [c] => [c]
  | c :: d :: rest =>
      if c = '\r' ∧ d = '\n' then '\n' :: replaceCRLF rest
      else c :: replaceCRLF (d :: rest)

/-- Go `bytes.Index(s, pat)`: the position of the first occurrence of `pat`
as a contiguous subsequence of `s`, or `none` (Go's `-1`). -/
def idxOf? (pat : List Char) : List Char → Option Nat
  | [] => if pat.isPrefixOf ([] : List Char) then some 0 else none
  | c :: r => if pat.isPrefixOf (c :: r) then some 0 else (idxOf? pat r).map (· + 1)

/-- Go `bytes.Contains(s, pat)`. -/
def containsSeq (pat s : List Char) : Bool :=
  (idxOf? pat s).isSome

/-- Go `bytes.IndexByte(s, '\n')`. -/
def idxOfNL : List Char → Option Nat
  | [] => none
  | c :: r => if c = '\n' then some 0 else (idxOfNL r).map (· + 1)

/-- The package-level constant `marker = []byte("-- ")`. -/
def marker : List Char := "-- ".data

/-- The package-level constant `markerEnd = []byte(" --")`. -/
def markerEnd : List Char := " --".data

/-- The package-level constant `newlineMarker = []byte("\n-- ")`. -/
def newlineMarker : List Char := "\n-- ".data

/-- Go `isMarker(data)`: if `data` begins with a file-marker line, return
the (trimmed) name from that line and the data after the line; otherwise
return an empty name.  The Go function returns `name == ""` for failure and
a `nil` `after` when the line is not newline-terminated; `after` is an
`Option` to keep the `nil` / non-`nil` distinction the parser relies on. -/
def isMarker (data : List Char) : List Char × Option (List Char) :=
  if marker.isPrefixOf data then
    match idxOfNL data with
    | some i =>
        if markerEnd.isSuffixOf (data.take i) ∧
            marker.length + markerEnd.length ≤ (data.take i).length then
          (TrimSpace (((data.take i).drop marker.length).take
              ((data.take i).length - marker.length - markerEnd.length)),
           some (data.drop (i + 1)))
        else ([], none)
    | none =>
        if markerEnd.isSuffixOf data ∧ marker.length + markerEnd.length ≤ data.length then
          (TrimSpace ((data.drop marker.length).take (data.length - marker.length - markerEnd.length)),
           none)
        else ([], none)
  else ([], none)

theorem marker_length : marker.length = 3 := rfl

theorem markerEnd_length : markerEnd.length = 3 := rfl

theorem newlineMarker_length : newlineMarker.length = 4 := rfl

theorem idxOf?_bound {pat s : List Char} {j : Nat} (h : idxOf? pat s = some j) :
    j + pat.length ≤ s.length := by
  induction s generalizing j with
  | nil =>
      unfold idxOf? at h
      split at h
      · rename_i hp
        cases h
        simpa using List.IsPrefix.length_le (List.isPrefixOf_iff_prefix.mp hp)
      · cases h
  | cons c r ih =>
      unfold idxOf? at h
      split at h
      · rename_i hp
        cases h
        simpa using List.IsPrefix.length_le (List.isPrefixOf_iff_prefix.mp hp)
      · rcases Option.map_eq_some'.mp h with ⟨j', hj', rfl⟩
        have := ih hj'
        simp only [List.length_cons]
        omega

theorem idxOfNL_lt {s : List Char} {i : Nat} (h : idxOfNL s = some i) :
    i < s.length := by
  induction s generalizing i with
  | nil => cases h
  | cons c r ih =>
      unfold idxOfNL at h
      split at h
      · cases h; simp
      · rcases Option.map_eq_some'.mp h with ⟨i', hi', rfl⟩
        have := ih hi'
        simp only [List.length_cons]
        omega

/-- Whatever `isMarker` returns, the data after the marker is no longer
than the input. -/
theorem isMarker_after_le (data : List Char) :
    ((isMarker data).2.getD []).length ≤ data.length := by
  unfold isMarker
  split
  · split
    · split
      · simp only [Option.getD_some, List.length_drop]; omega
      · simp
    · split
      · simp
      · simp
  · simp

/-- Either `isMarker` fails (empty name) or the data after the marker is at
least six bytes (the marker frame) shorter than the input. -/
theorem isMarker_cases (data : List Char) :
    (isMarker data).1 = [] ∨ ((isMarker data).2.getD []).length + 6 ≤ data.length := by
  unfold isMarker
  split
  · split
    · rename_i i heq
      split
      · rename_i hline
        right
        have hi := idxOfNL_lt heq
        have hlen := hline.2
        simp only [marker_length, markerEnd_length, List.length_take] at hlen
        simp only [Option.getD_some, List.length_drop]
        omega
      · left; rfl
    · split
      · rename_i hline
        right
        have hlen := hline.2
        simp only [marker_length, markerEnd_length] at hlen
        simp only [Option.getD_none, List.length_nil]
        omega
      · left; rfl
  · left; rfl

/-- When `isMarker` succeeds (non-empty name), the data after the marker is
at least six bytes shorter than the input. -/
theorem isMarker_after_add_lt {data : List Char} (h : (isMarker data).1 ≠ []) :
    ((isMarker data).2.getD []).length + 6 ≤ data.length :=
  (isMarker_cases data).resolve_left h

/-- Go `findFileMarker`'s scanning loop, with explicit offset `i`: test for
a marker at offset `i`; on failure jump to the next occurrence of
`"\n-- "` and retry one past it, or give up when there is none.  The
`Write`-based variant returns the data itself in the no-marker case. -/
def findAux (data : List Char) (i : Nat) : List Char × List Char × Option (List Char) :=
  let m := isMarker (data.drop i)
  if m.1 ≠ [] then (data.take i, m.1, m.2)
  else
    match hj : idxOf? newlineMarker (data.drop i) with
    | none => (data, [], none)
    | some j => findAux data (i + (j + 1))
termination_by data.length - i
decreasing_by
  have := idxOf?_bound hj
  simp only [List.length_drop, newlineMarker] at this
  simp [newlineMarker] at this
  omega

/-- Go `findFileMarker(data)` (the `Write`-based variant): find the next
file marker in `data`, returning the data before it, the file name, and
the data after the marker line. -/
def findFileMarker (data : List Char) : List Char × List Char × Option (List Char) :=
  findAux data 0

/-- The scanning loop of `findFileMarker` with an explicit iteration
budget: fuel `0` is only reached if the loop would run longer than the
budget.  `findAux_eq_fueled` shows a budget of `data.length + 1`
iterations always suffices, which is the termination bound of the scan. -/
def findAuxF : Nat → List Char → Nat → List Char × List Char × Option (List Char)
  | 0, data, _ => (data, [], none)
  | fuel + 1, data, i =>
      let m := isMarker (data.drop i)
      if m.1 ≠ [] then (data.take i, m.1, m.2)
      else
        match idxOf? newlineMarker (data.drop i) with
        | none => (data, [], none)
        | some j => findAuxF fuel data (i + (j + 1))

/-- The scan returns after at most `data.length + 1 - i` iterations: with
that much fuel the fuelled loop agrees with the recursive one.  The strict
advance past a failed candidate (`i` to `i + j + 1`) is what makes the
bound hold. -/
theorem findAux_eq_fueled (data : List Char) :
    ∀ i fuel, data.length + 1 - i ≤ fuel → findAux data i = findAuxF fuel data i := by
  suffices H : ∀ k i fuel, data.length - i = k → data.length + 1 - i ≤ fuel →
      findAux data i = findAuxF fuel data i by
    exact fun i fuel h => H _ i fuel rfl h
  intro k
  induction k using Nat.strong_induction_on with
  | _ k ih =>
    intro i fuel hk hfuel
    rw [findAux.eq_def]
    cases fuel with
    | zero =>
        have hi : data.length < i := by omega
        rw [List.drop_eq_nil_of_le (by omega), findAuxF]
        rfl
    | succ fuel =>
      rw [findAuxF]
      simp only []
      split
      · rfl
      · split
        · rename_i hj
          rw [hj]
        · rename_i j hj
          rw [hj]
          have hb := idxOf?_bound hj
          simp only [newlineMarker_length, List.length_drop] at hb
          exact ih (data.length - (i + (j + 1))) (by omega) _ _ rfl (by omega)

/-- The data after any scan result is no longer than the input. -/
theorem findAux_after_le (data : List Char) :
    ∀ i, ((findAux data i).2.2.getD []).length ≤ data.length := by
  suffices H : ∀ k i, data.length - i = k →
      ((findAux data i).2.2.getD []).length ≤ data.length by
    exact fun i => H _ i rfl
  intro k
  induction k using Nat.strong_induction_on with
  | _ k ih =>
    intro i hk
    rw [findAux.eq_def]
    simp only []
    split
    · have h := isMarker_after_le (data.drop i)
      simp only [List.length_drop] at h
      dsimp only
      exact h.trans (by omega)
    · split
      · simp
      · rename_i j hj
        have hb := idxOf?_bound hj
        simp only [newlineMarker_length, List.length_drop] at hb
        exact ih (data.length - (i + (j + 1))) (by omega) _ rfl

/-- When the scan finds a marker, the data after it is strictly shorter
than the input. -/
theorem findAux_after_lt (data : List Char) :
    ∀ i, (findAux data i).2.1 ≠ [] → ((findAux data i).2.2.getD []).length < data.length := by
  suffices H : ∀ k i, data.length - i = k → (findAux data i).2.1 ≠ [] →
      ((findAux data i).2.2.getD []).length < data.length by
    exact fun i => H _ i rfl
  intro k
  induction k using Nat.strong_induction_on with
  | _ k ih =>
    intro i hk
    rw [findAux.eq_def]
    simp only []
    split
    · rename_i hm
      intro _
      have h := isMarker_after_add_lt hm
      simp only [List.length_drop] at h
      dsimp only
      omega
    · split
      · simp
      · rename_i j hj
        have hb := idxOf?_bound hj
        simp only [newlineMarker_length, List.length_drop] at hb
        exact ih (data.length - (i + (j + 1))) (by omega) _ rfl

/-! ## The archive store

The Go `map[string][]byte` becomes an association list with map
semantics: `mapGet` finds the (first) binding of a key, `mapInsert`
overwrites it in place or appends a fresh binding, `mapErase` removes
it.  Archives built by the package only ever insert, starting from the
empty map, so their key lists are duplicate-free. -/

/-- Go map lookup `m[k]`. -/
def mapGet (k : List Char) : List (List Char × List Char) → Option (List Char)
  | [] => none
  | (k', v) :: r => if k = k' then some v else mapGet k r

/-- Go map assignment `m[k] = v`. -/
def mapInsert (k v : List Char) : List (List Char × List Char) → List (List Char × List Char)
  | [] => [(k, v)]
  | (k', v') :: r => if k = k' then (k, v) :: r else (k', v') :: mapInsert k v r

/-- Go `delete(m, k)`. -/
def mapErase (k : List Char) (m : List (List Char × List Char)) :
    List (List Char × List Char) :=
  m.filter (fun e => decide (e.1 ≠ k))

/-- The Go `Archive` struct: the files of the archive (name to contents)
and the top level comment. -/
structure Archive where
  files : List (List Char × List Char)
  comment : List Char
deriving DecidableEq, Repr

/-- Go `New()` without options: an empty archive. -/
def New : Archive := { files := [], comment := [] }

/-- The `Comment` method on a non-nil receiver. -/
def Archive.Comment (a : Archive) : List Char := a.comment

/-- The `Has` method on a non-nil receiver: the name is trimmed before
lookup. -/
def Archive.Has (a : Archive) (name : List Char) : Bool :=
  (mapGet (TrimSpace name) a.files).isSome

/-- The `Write` method on a non-nil receiver: trim the name and the
contents, normalize the trailing newline, and upsert. -/
def Archive.Write (a : Archive) (name contents : List Char) : Archive :=
  { a with files := mapInsert (TrimSpace name) (fixNL (TrimSpace contents)) a.files }

/-- The `Read` method on a non-nil receiver: contents of the (trimmed)
name, or the formatted not-found error. -/
def Archive.Read (a : Archive) (name : List Char) : Except (List Char) (List Char) :=
  match mapGet (TrimSpace name) a.files with
  | some contents => .ok contents
  | none => .error ("file ".data ++ TrimSpace name ++ " not contained in the archive".data)

/-- The `Delete` method on a non-nil receiver: remove the (trimmed) name;
a no-op when absent. -/
def Archive.Delete (a : Archive) (name : List Char) : Archive :=
  { a with files := mapErase (TrimSpace name) a.files }

/-- The `Size` method on a non-nil receiver: the number of files. -/
def Archive.Size (a : Archive) : Nat := a.files.length

/-- The names of the archive's files sorted ascending, as Go's
`slices.Sort` leaves them: the byte-wise lexicographic order on names. -/
def sortNames (names : List (List Char)) : List (List Char) :=
  List.insertionSort (· ≤ ·) names

/-- The `String` method on a non-nil receiver: the comment (followed by a
blank line when files follow), then each file as `"-- name --\n"` plus its
stored contents, in ascending name order.  The stored contents already end
in a newline when non-empty, so nothing более is appended after them. -/
def Archive.String (a : Archive) : List Char :=
  (if a.comment = [] then []
   else a.comment ++ ['\n'] ++ (if a.files = [] then [] else ['\n']))
  ++ (sortNames (a.files.map Prod.fst)).flatMap
      (fun n => marker ++ n ++ markerEnd ++ '\n' :: (mapGet n a.files).getD [])

/-- Go `Equal(a, b)`: equal iff both nil, or both non-nil with the same
comment, the same number of files, and every file of `a` present in `b`
with byte-identical contents. -/
def Equal (a b : Option Archive) : Bool :=
  match a, b with
  | none, none => true
  | none, some _ => false
  | some _, none => false
  | some a, some b =>
      if a.comment ≠ b.comment then false
      else if a.files.length ≠ b.files.length then false
      else a.files.all fun e =>
        match mapGet e.1 b.files with
        | none => false
        | some w => decide (e.2 = w)

/-! The nil-safe method wrappers: every method of the `Write`-based store
takes a `*Archive` receiver and begins by checking it for `nil`.  A
possibly-nil receiver is an `Option Archive`; the primed functions below
are those methods, verbatim. -/

/-- `Comment` on a possibly-nil receiver: empty string on nil. -/
def Comment' (a : Option Archive) : List Char :=
  match a with
  | none => []
  | some a => a.Comment

/-- `Has` on a possibly-nil receiver: false on nil. -/
def Has' (a : Option Archive) (name : List Char) : Bool :=
  match a with
  | none => false
  | some a => a.Has name

/-- `Write` on a possibly-nil receiver: an explicit error on nil. -/
def Write' (a : Option Archive) (name contents : List Char) : Except (List Char) Archive :=
  match a with
  | none => .error "Write called on a nil Archive".data
  | some a => .ok (a.Write name contents)

/-- `Read` on a possibly-nil receiver: an explicit error on nil. -/
def Read' (a : Option Archive) (name : List Char) : Except (List Char) (List Char) :=
  match a with
  | none => .error "Read called on a nil Archive".data
  | some a => a.Read name

/-- `Delete` on a possibly-nil receiver: a no-op on nil. -/
def Delete' (a : Option Archive) (name : List Char) : Option Archive :=
  match a with
  | none => none
  | some a => some (a.Delete name)

/-- `Size` on a possibly-nil receiver: zero on nil. -/
def Size' (a : Option Archive) : Nat :=
  match a with
  | none => 0
  | some a => a.Size

/-- `String` on a possibly-nil receiver: empty on nil. -/
def String' (a : Option Archive) : List Char :=
  match a with
  | none => []
  | some a => a.String

/-! ## The parser (`Write`-based variant) -/

/-- The error `Parse` returns on empty input. -/
def emptyArchiveErr : List Char := "Parse: cannot parse empty txtar archive".data

/-- The error `Parse` returns on input with no occurrence of `"-- "`. -/
def noFilesErr : List Char := "Parse: archive contains no files".data

/-- The error the `Write`-based `Parse` returns when the first scan ends
with a `nil` remainder. -/
def untermErr : List Char := "Parse: unterminated file marker".data

/-- The `for name != ""` loop of `Parse`: store the pending `name` with the
contents the next scan returns (trimmed, newline-normalized) and continue
with the scan's name and remainder, until the pending name is empty. -/
def parseLoop (name data : List Char) (files : List (List Char × List Char)) :
    List (List Char × List Char) :=
  if name = [] then files
  else
    parseLoop (findFileMarker data).2.1 ((findFileMarker data).2.2.getD [])
      (mapInsert name (fixNL (TrimSpace (findFileMarker data).1)) files)
termination_by data.length + (if name = [] then 0 else 1)
decreasing_by
  have hname : ¬ name = [] := by assumption
  rcases eq_or_ne (findFileMarker data).2.1 [] with h | h
  · have := findAux_after_le data 0
    simp only [findFileMarker] at *
    simp [h, hname]
    omega
  · have := findAux_after_lt data 0 h
    simp only [findFileMarker] at *
    simp [h, hname]
    omega

/-- The `Write`-based `Parse`: reject empty input and input without
`"-- "`, normalize CRLF to LF, scan the comment, reject a `nil` remainder
(unterminated marker), then run the storage loop. -/
def Parse (data : List Char) : Except (List Char) Archive :=
  if data.length = 0 then .error emptyArchiveErr
  else if ¬ containsSeq marker data then .error noFilesErr
  else
    match (findFileMarker (replaceCRLF data)).2.2 with
    | none => .error untermErr
    | some rest =>
        .ok { files := parseLoop (findFileMarker (replaceCRLF data)).2.1 rest [],
              comment := TrimSpace (findFileMarker (replaceCRLF data)).1 }

end Txtar

/-! ## The `Add`-based variant

The earlier coherent variant of the package: `Add` is the strict insert
(duplicate names are an error; contents are stored trimmed, with no
trailing-newline normalization), its `findFileMarker` returns
`fixNL(data)` in the no-marker case, and its `Parse` has neither the CRLF
normalization nor the unterminated-marker check.  `Has`, `Read`, `Delete`
and the scanner loop are byte-for-byte those of namespace `Txtar`. -/

namespace TxtarAdd

open Txtar

/-- The `Add`-variant `findFileMarker`: the same scanning loop as
`Txtar.findAux`, except that the no-marker exit returns `fixNL data`.
`Txtar.findAux` returns the whole input in that exit, so applying `fixNL`
to it afterwards is that function. -/
def findFileMarker (data : List Char) : List Char × List Char × Option (List Char) :=
  if (Txtar.findAux data 0).2.1 = [] then (fixNL data, [], none)
  else Txtar.findAux data 0

/-- The `Add` method: trim the name, fail if it is already present (the
archive unchanged), otherwise store the trimmed contents.  The Go method
mutates its receiver and returns only an `error`; here the (archive,
error) pair after the call is returned. -/
def Add (a : Archive) (name contents : List Char) : Archive × Option (List Char) :=
  if (mapGet (TrimSpace name) a.files).isSome then
    (a, some ("file with name ".data ++ TrimSpace name ++ " already exists in archive".data))
  else ({ a with files := mapInsert (TrimSpace name) (TrimSpace contents) a.files }, none)

theorem findFileMarker_after_le (data : List Char) :
    ((findFileMarker data).2.2.getD []).length ≤ data.length := by
  unfold findFileMarker
  split
  · simp
  · exact findAux_after_le data 0

theorem findFileMarker_after_lt {data : List Char} (h : (findFileMarker data).2.1 ≠ []) :
    ((findFileMarker data).2.2.getD []).length < data.length := by
  unfold findFileMarker at h ⊢
  rcases eq_or_ne (Txtar.findAux data 0).2.1 [] with hc | hc
  · rw [if_pos hc] at h
    simp at h
  · rw [if_neg hc] at h ⊢
    exact findAux_after_lt data 0 hc

/-- The storage loop of the `Add`-variant `Parse`: contents are stored
trimmed only, without `fixNL`. -/
def parseLoop (name data : List Char) (files : List (List Char × List Char)) :
    List (List Char × List Char) :=
  if name = [] then files
  else
    parseLoop (findFileMarker data).2.1 ((findFileMarker data).2.2.getD [])
      (mapInsert name (TrimSpace (findFileMarker data).1) files)
termination_by data.length + (if name = [] then 0 else 1)
decreasing_by
  have hname : ¬ name = [] := by assumption
  rcases eq_or_ne (findFileMarker data).2.1 [] with h | h
  · have := findFileMarker_after_le data
    simp [h, hname]
    omega
  · have := findFileMarker_after_lt h
    simp [h, hname]
    omega

/-- The `Add`-variant `Parse`: reject empty input and input without
`"-- "`; scan the comment and run the storage loop — no CRLF
normalization and no unterminated-marker check. -/
def Parse (data : List Char) : Except (List Char) Archive :=
  if data.length = 0 then .error emptyArchiveErr
  else if ¬ containsSeq marker data then .error noFilesErr
  else
    .ok { files := parseLoop (findFileMarker data).2.1 ((findFileMarker data).2.2.getD []) [],
          comment := TrimSpace (findFileMarker data).1 }

end TxtarAdd

namespace Txtar

/-! ## Properties of `TrimSpace` and `fixNL` -/

theorem dropWhile_head_not {p : Char → Bool} :
    ∀ {s : List Char} {c : Char} {t : List Char}, s.dropWhile p = c :: t → p c = false := by
  intro s
  induction s with
  | nil => intro c t h; cases h
  | cons x xs ih =>
      intro c t h
      rw [List.dropWhile_cons] at h
      split at h
      · exact ih h
      · cases h
        rename_i hpx
        simpa using hpx

theorem dropWhile_eq_self {p : Char → Bool} {s : List Char}
    (h : ∀ c, s.head? = some c → p c = false) : s.dropWhile p = s := by
  cases s with
  | nil => rfl
  | cons x xs =>
      rw [List.dropWhile_cons, if_neg]
      simp [h x rfl]

theorem dropWhile_all {p : Char → Bool} {w s : List Char}
    (hw : ∀ c ∈ w, p c = true) : (w ++ s).dropWhile p = s.dropWhile p := by
  induction w with
  | nil => rfl
  | cons x xs ih =>
      rw [List.cons_append, List.dropWhile_cons, if_pos (hw x (by simp))]
      exact ih (fun c hc => hw c (by simp [hc]))

/-- The last character of a trimmed string is never white space. -/
theorem TrimSpace_getLast_not_space {s : List Char} {c : Char}
    (h : (TrimSpace s).getLast? = some c) : isSpace c = false := by
  unfold TrimSpace at h
  rw [List.getLast?_reverse] at h
  cases hx : List.dropWhile isSpace (s.dropWhile isSpace).reverse with
  | nil => rw [hx] at h; cases h
  | cons y t =>
      rw [hx] at h
      cases h
      exact dropWhile_head_not hx

/-- The first character of a trimmed string is never white space. -/
theorem TrimSpace_head_not_space {s : List Char} {c : Char}
    (h : (TrimSpace s).head? = some c) : isSpace c = false := by
  unfold TrimSpace at h
  rw [List.head?_reverse] at h
  rcases List.dropWhile_suffix (l := (s.dropWhile isSpace).reverse) isSpace with ⟨t, ht⟩
  cases hx : List.dropWhile isSpace (s.dropWhile isSpace).reverse with
  | nil => rw [hx] at h; cases h
  | cons y u =>
      rw [hx] at h
      have h2 : (s.dropWhile isSpace).reverse.getLast? = some c := by
        rw [← ht, List.getLast?_append, hx, h]
        rfl
      rw [List.getLast?_reverse] at h2
      cases hd : s.dropWhile isSpace with
      | nil => rw [hd] at h2; cases h2
      | cons z zs =>
          rw [hd] at h2
          cases h2
          exact dropWhile_head_not hd

theorem TrimSpace_idem (s : List Char) : TrimSpace (TrimSpace s) = TrimSpace s := by
  have h1 : (TrimSpace s).dropWhile isSpace = TrimSpace s :=
    dropWhile_eq_self (fun c hc => TrimSpace_head_not_space hc)
  have h2 : (TrimSpace s).reverse.dropWhile isSpace = (TrimSpace s).reverse :=
    dropWhile_eq_self (fun c hc =>
      TrimSpace_getLast_not_space (by rwa [List.head?_reverse] at hc))
  show (((TrimSpace s).dropWhile isSpace).reverse.dropWhile isSpace).reverse = TrimSpace s
  rw [h1, h2, List.reverse_reverse]

/-- Appending white space on the right does not change the trimmed value. -/
theorem TrimSpace_append_ws {s w : List Char} (hw : ∀ c ∈ w, isSpace c = true) :
    TrimSpace (s ++ w) = TrimSpace s := by
  have key : ∀ x : List Char, ((x ++ w).reverse.dropWhile isSpace).reverse
      = (x.reverse.dropWhile isSpace).reverse := by
    intro x
    rw [List.reverse_append, dropWhile_all (fun c hc => hw c (by simpa using hc))]
  show (((s ++ w).dropWhile isSpace).reverse.dropWhile isSpace).reverse = _
  rw [List.dropWhile_append]
  split
  · rename_i hempty
    have hs : s.dropWhile isSpace = [] := by simpa using hempty
    have hww : w.dropWhile isSpace = [] := by
      have := dropWhile_all (s := ([] : List Char)) hw
      simpa using this
    show _ = ((s.dropWhile isSpace).reverse.dropWhile isSpace).reverse
    rw [hs, hww]
  · show _ = ((s.dropWhile isSpace).reverse.dropWhile isSpace).reverse
    exact key (s.dropWhile isSpace)

theorem fixNL_of_ne {s : List Char} (h1 : s ≠ []) (h2 : s.getLast? ≠ some '\n') :
    fixNL s = s ++ ['\n'] := by
  unfold fixNL
  rw [if_neg]
  rintro (h | h)
  · exact h1 h
  · exact h2 h

/-- On a non-empty trimmed string `fixNL` appends exactly one newline. -/
theorem fixNL_TrimSpace_eq {s : List Char} (h : TrimSpace s ≠ []) :
    fixNL (TrimSpace s) = TrimSpace s ++ ['\n'] := by
  apply fixNL_of_ne h
  intro hl
  have := TrimSpace_getLast_not_space hl
  simp [isSpace] at this

/-- Trimming swallows the newline `fixNL` appends. -/
theorem TrimSpace_fixNL (s : List Char) : TrimSpace (fixNL s) = TrimSpace s := by
  unfold fixNL
  split
  · rfl
  · exact TrimSpace_append_ws (by intro c hc; simp at hc; simp [hc, isSpace])

/-! ## Properties of the map operations -/

theorem mapGet_insert_self (k v : List Char) (m : List (List Char × List Char)) :
    mapGet k (mapInsert k v m) = some v := by
  induction m with
  | nil => simp [mapInsert, mapGet]
  | cons e r ih =>
      obtain ⟨k', v'⟩ := e
      unfold mapInsert
      by_cases h : k = k'
      · simp [h, mapGet]
      · simp only [if_neg h]
        unfold mapGet
        simp [h, ih]

theorem mapGet_insert_ne {k k' : List Char} (h : k ≠ k') (v : List Char)
    (m : List (List Char × List Char)) :
    mapGet k (mapInsert k' v m) = mapGet k m := by
  induction m with
  | nil => simp [mapInsert, mapGet, h]
  | cons e r ih =>
      obtain ⟨k'', v''⟩ := e
      unfold mapInsert
      by_cases h2 : k' = k''
      · subst h2
        simp [mapGet, h, if_neg h]
      · simp only [if_neg h2]
        unfold mapGet
        by_cases h3 : k = k''
        · simp [h3]
        · simp [h3, ih]

theorem mapInsert_of_get_none {k : List Char} {m : List (List Char × List Char)}
    (h : mapGet k m = none) (v : List Char) : mapInsert k v m = m ++ [(k, v)] := by
  induction m with
  | nil => rfl
  | cons e r ih =>
      obtain ⟨k', v'⟩ := e
      unfold mapGet at h
      by_cases h2 : k = k'
      · simp [h2] at h
      · simp only [if_neg h2] at h
        unfold mapInsert
        simp [h2, ih h]

theorem length_mapInsert_of_get_none {k : List Char} {m : List (List Char × List Char)}
    (h : mapGet k m = none) (v : List Char) :
    (mapInsert k v m).length = m.length + 1 := by
  rw [mapInsert_of_get_none h]
  simp

theorem mem_mapInsert {p : List Char × List Char} {k v : List Char}
    {m : List (List Char × List Char)} (h : p ∈ mapInsert k v m) :
    p = (k, v) ∨ p ∈ m := by
  induction m with
  | nil => simpa [mapInsert] using h
  | cons e r ih =>
      obtain ⟨k', v'⟩ := e
      unfold mapInsert at h
      by_cases h2 : k = k'
      · simp only [if_pos h2, List.mem_cons] at h
        rcases h with h | h
        · left; simpa using h
        · right; simp [h]
      · simp only [if_neg h2, List.mem_cons] at h
        rcases h with h | h
        · right; simp [h]
        · rcases ih h with h | h
          · left; exact h
          · right; simp [h]

theorem mem_mapErase {p : List Char × List Char} {k : List Char}
    {m : List (List Char × List Char)} (h : p ∈ mapErase k m) : p ∈ m :=
  List.mem_of_mem_filter h

end Txtar

namespace Txtar

/-! ## Claim C4: nil-receiver safety -/

/-- C4: every accessor invoked on a nil `*Archive` returns its defensive
default without undefined behaviour — `Comment` the empty string, `Has`
false, `Size` zero, `Read` a failure rather than contents, `String` the
empty string — and the mutating operations on a nil receiver either no-op
(`Delete`) or fail explicitly (`Write`). -/
theorem nil_archive_defaults (n c : List Char) :
    Comment' none = [] ∧ Has' none n = false ∧ Size' none = 0
    ∧ (Read' none n).isOk = false ∧ String' none = []
    ∧ Delete' none n = none ∧ (Write' none n c).isOk = false :=
  ⟨rfl, rfl, rfl, rfl, rfl, rfl, rfl⟩

/-! ## Claim C7: `Add` and duplicate names -/

/-- C7: `Add` returns an error exactly when the trimmed name is already a
key of the archive's files; on error the archive is unchanged; on success
the name is present afterwards and the size has grown by one. -/
theorem add_duplicate_spec (a : Archive) (n c : List Char) :
    ((TxtarAdd.Add a n c).2.isSome = a.Has n)
    ∧ ((TxtarAdd.Add a n c).2.isSome = true → (TxtarAdd.Add a n c).1 = a)
    ∧ ((TxtarAdd.Add a n c).2 = none →
        (TxtarAdd.Add a n c).1.Has n = true
        ∧ (TxtarAdd.Add a n c).1.Size = a.Size + 1) := by
  unfold TxtarAdd.Add
  by_cases h : (mapGet (TrimSpace n) a.files).isSome
  · refine ⟨?_, ?_, ?_⟩
    · simp [h, Archive.Has]
    · intro _
      simp [h]
    · intro hc
      simp [h] at hc
  · have hnone : mapGet (TrimSpace n) a.files = none :=
      Option.not_isSome_iff_eq_none.mp h
    refine ⟨?_, ?_, fun _ => ⟨?_, ?_⟩⟩
    · simp [h, Archive.Has, hnone]
    · intro hc
      simp [h] at hc
    · simp [h, Archive.Has, mapGet_insert_self]
    · simp [h, Archive.Size, length_mapInsert_of_get_none hnone]

/-! ## Claim C9: all names are trimmed before use -/

/-- C9: each store operation addresses the entry keyed by the trimmed form
of its name argument, so the operation applied to `name` and to
`TrimSpace name` is the same operation: `Has`, `Read`, `Delete` and `Add`
all agree on the two spellings (and hence on `" name "` versus `"name"`). -/
theorem trimmed_name_addressing (a : Archive) (n c : List Char) :
    a.Has n = a.Has (TrimSpace n)
    ∧ a.Read n = a.Read (TrimSpace n)
    ∧ a.Delete n = a.Delete (TrimSpace n)
    ∧ TxtarAdd.Add a n c = TxtarAdd.Add a (TrimSpace n) c := by
  refine ⟨?_, ?_, ?_, ?_⟩
  · simp [Archive.Has, TrimSpace_idem]
  · simp [Archive.Read, TrimSpace_idem]
  · simp [Archive.Delete, TrimSpace_idem]
  · simp [TxtarAdd.Add, TrimSpace_idem]

end Txtar

namespace Txtar

/-! ## Lines -/

/-- Split text into its lines (each without its terminating newline); an
unterminated final line counts as a line. -/
def linesOf : List Char → List (List Char)
  | [] => []
  | c :: rest =>
      if c = '\n' then [] :: linesOf rest
      else
        match linesOf rest with
        | [] => [[c]]
        | l :: ls => (c :: l) :: ls

/-- Rebuild text from lines, terminating every line with a newline. -/
def joinLines (L : List (List Char)) : List Char :=
  L.flatMap (· ++ ['\n'])

/-- The name `isMarker` would extract from the complete line `l` (no
newline in `l`): empty when the line is not a well-formed marker line. -/
def markerNameOfLine (l : List Char) : List Char :=
  if marker.isPrefixOf l ∧ markerEnd.isSuffixOf l
      ∧ marker.length + markerEnd.length ≤ l.length then
    TrimSpace ((l.drop marker.length).take (l.length - marker.length - markerEnd.length))
  else []

/-- Modelled from the claim's wording (C3): a "valid marker line" is a
line whose trimmed form starts with `"-- "` and ends with `" --"`. -/
def specMarkerLine (l : List Char) : Bool :=
  marker.isPrefixOf (TrimSpace l) && markerEnd.isSuffixOf (TrimSpace l)

/-! ## Claim C8: termination of the marker scan -/

/-- C8: the scanning loop of `findFileMarker` terminates on every input:
after a failed candidate the offset advances strictly (from `i` past the
next `"\n-- "` occurrence to `i + j + 1 ≤ length`), so the whole scan
finishes within `length + 1` iterations — with that iteration budget the
fuelled loop `findAuxF` computes `findFileMarker`. -/
theorem findFileMarker_terminates (data : List Char) (i j : Nat)
    (h : idxOf? newlineMarker (data.drop i) = some j) :
    (i < i + (j + 1) ∧ i + (j + 1) ≤ data.length)
    ∧ findFileMarker data = findAuxF (data.length + 1) data 0 := by
  constructor
  · have hb := idxOf?_bound h
    simp only [newlineMarker_length, List.length_drop] at hb
    omega
  · exact findAux_eq_fueled data 0 _ (by omega)

/-- Witness for C8 at a concrete input whose first line `"-- x"` is a
false-positive candidate. -/
theorem findFileMarker_terminates_witness :
    (((0 : Nat) < 0 + (4 + 1) ∧ 0 + (4 + 1) ≤ ("-- x\n-- a --\n".data).length)
    ∧ findFileMarker "-- x\n-- a --\n".data
      = findAuxF ("-- x\n-- a --\n".data.length + 1) "-- x\n-- a --\n".data 0) :=
  findFileMarker_terminates "-- x\n-- a --\n".data 0 4 (by decide)

/-! ## Claim C3: when `Parse` fails -/

/-- C3 (amended): the `Add`-based `Parse` fails exactly on empty input
(with the empty-archive error) and on input containing no occurrence of
the three bytes `"-- "` anywhere (with the no-files error); every other
input parses without error.  The Go check is `bytes.Contains(data,
marker)`, a substring test, not a test for a well-formed marker line. -/
theorem parse_error_characterization (data : List Char) :
    (data = [] → TxtarAdd.Parse data = .error emptyArchiveErr)
    ∧ (data ≠ [] → containsSeq marker data = false →
        TxtarAdd.Parse data = .error noFilesErr)
    ∧ (data ≠ [] → containsSeq marker data = true →
        (TxtarAdd.Parse data).isOk = true) := by
  refine ⟨?_, ?_, ?_⟩
  · intro h
    subst h
    rfl
  · intro h1 h2
    have hl : data.length ≠ 0 := by simpa [List.length_eq_zero] using h1
    simp [TxtarAdd.Parse, hl, h2]
  · intro h1 h2
    have hl : data.length ≠ 0 := by simpa [List.length_eq_zero] using h1
    simp [TxtarAdd.Parse, hl, h2, Except.isOk, Except.toBool]

/-- Counterexample for C3 as stated: `"hello -- world"` is non-empty and
contains no line whose trimmed form is a marker line, yet `Parse`
succeeds (the code's test is the `"-- "` substring, which this input
contains mid-line). -/
theorem parse_ok_without_marker_line :
    (linesOf (fixNL "hello -- world".data)).all (fun l => !specMarkerLine l) = true
    ∧ "hello -- world".data ≠ []
    ∧ (TxtarAdd.Parse "hello -- world".data).isOk = true := by
  refine ⟨by decide, by decide, ?_⟩
  decide

end Txtar

namespace Txtar

/-! ## Scanner characterization: `isMarker` on a complete line -/

theorem idxOfNL_append {l : List Char} (hnl : '\n' ∉ l) (rest : List Char) :
    idxOfNL (l ++ '\n' :: rest) = some l.length := by
  induction l with
  | nil => simp [idxOfNL]
  | cons c t ih =>
      have hc : c ≠ '\n' := by
        intro h
        exact hnl (by simp [h])
      have ht : '\n' ∉ t := fun h => hnl (by simp [h])
      simp [idxOfNL, hc, ih ht]

theorem isPrefixOf_append_cases {pat l : List Char} {c : Char} {z : List Char}
    (h : pat.isPrefixOf (l ++ c :: z) = true) :
    pat.isPrefixOf l = true ∨ c ∈ pat := by
  have hpre := List.prefix_iff_eq_take.mp (List.isPrefixOf_iff_prefix.mp h)
  rw [List.take_append_eq_append_take] at hpre
  rcases le_or_lt pat.length l.length with hle | hlt
  · left
    rw [List.isPrefixOf_iff_prefix, List.prefix_iff_eq_take]
    have h0 : pat.length - l.length = 0 := by omega
    rw [h0] at hpre
    simpa using hpre
  · right
    have hk : pat.length - l.length ≠ 0 := by omega
    cases hpk : pat.length - l.length with
    | zero => exact absurd hpk hk
    | succ k =>
        rw [hpk] at hpre
        rw [hpre]
        simp

theorem isPrefixOf_extend {pat l : List Char} (h : pat.isPrefixOf l = true)
    (x : List Char) : pat.isPrefixOf (l ++ x) = true := by
  rw [List.isPrefixOf_iff_prefix] at h ⊢
  exact h.trans (List.prefix_append l x)

/-- `isMarker` on a newline-terminated line followed by anything: a
well-shaped line yields its (possibly empty) trimmed name and the
remainder; any other line fails with a `nil` remainder. -/
theorem isMarker_line_eval {l : List Char} (hnl : '\n' ∉ l) (rest : List Char) :
    isMarker (l ++ '\n' :: rest)
      = if marker.isPrefixOf l ∧ markerEnd.isSuffixOf l
            ∧ marker.length + markerEnd.length ≤ l.length
        then (markerNameOfLine l, some rest) else ([], none) := by
  unfold isMarker
  by_cases hp : marker.isPrefixOf l = true
  · have hpd : marker.isPrefixOf (l ++ '\n' :: rest) = true := isPrefixOf_extend hp _
    rw [if_pos hpd, idxOfNL_append hnl rest]
    dsimp only
    rw [List.take_left]
    by_cases hs : markerEnd.isSuffixOf l = true ∧ marker.length + markerEnd.length ≤ l.length
    · rw [if_pos hs, if_pos ⟨hp, hs.1, hs.2⟩, List.drop_append 1]
      unfold markerNameOfLine
      rw [if_pos ⟨hp, hs.1, hs.2⟩]
      rfl
    · rw [if_neg hs, if_neg (by tauto)]
  · have hpd : ¬ marker.isPrefixOf (l ++ '\n' :: rest) = true := by
      intro hcon
      rcases isPrefixOf_append_cases hcon with h | h
      · exact hp h
      · exact absurd h (by decide)
    rw [if_neg hpd, if_neg (by tauto)]

end Txtar

namespace Txtar

/-! ## Scanner characterization: skipping content -/

theorem idxOf?_append_head_not_mem {pat : List Char} {h0 : Char}
    (hph : pat.head? = some h0) {w : List Char} (hw : h0 ∉ w) (s : List Char) :
    idxOf? pat (w ++ s) = (idxOf? pat s).map (· + w.length) := by
  induction w with
  | nil =>
      cases h : idxOf? pat s <;> simp [h]
  | cons c w' ih =>
      have hc : c ≠ h0 := by
        intro h
        exact hw (by simp [h])
      have hw' : h0 ∉ w' := fun h => hw (by simp [h])
      obtain ⟨pt, rfl⟩ : ∃ pt, pat = h0 :: pt := by
        cases pat with
        | nil => cases hph
        | cons p ps =>
            cases hph
            exact ⟨ps, rfl⟩
      have hpre : (h0 :: pt).isPrefixOf (c :: (w' ++ s)) = false := by
        rw [List.isPrefixOf_cons₂]
        simp [Ne.symm hc]
      have step : idxOf? (h0 :: pt) ((c :: w') ++ s)
          = (idxOf? (h0 :: pt) (w' ++ s)).map (· + 1) := by
        rw [List.cons_append]
        conv_lhs => rw [idxOf?]
        rw [hpre]
        simp
      rw [step, ih hw']
      cases h : idxOf? (h0 :: pt) s with
      | none => simp
      | some v =>
          simp only [Option.map_some', List.length_cons]
          congr 1

theorem isMarker_not_prefixed {d : List Char} (h : ¬ marker.isPrefixOf d = true) :
    isMarker d = ([], none) := by
  unfold isMarker
  rw [if_neg h]

theorem newlineMarker_cons_eval (T : List Char) :
    newlineMarker.isPrefixOf ('\n' :: T) = marker.isPrefixOf T := by
  show ('\n' :: marker).isPrefixOf ('\n' :: T) = _
  rw [List.isPrefixOf_cons₂]
  simp

/-- Shifting the scan past one complete line: at an offset just past the
line's newline, scanning `l ++ '\n' :: T` is scanning `T` from the
corresponding offset, with the line prepended to the `before` part. -/
theorem findAux_shift (l : List Char) (T : List Char) :
    ∀ i, findAux (l ++ '\n' :: T) (l.length + 1 + i)
      = (l ++ '\n' :: (findAux T i).1, (findAux T i).2) := by
  suffices H : ∀ k i, T.length - i = k →
      findAux (l ++ '\n' :: T) (l.length + 1 + i)
        = (l ++ '\n' :: (findAux T i).1, (findAux T i).2) by
    exact fun i => H _ i rfl
  intro k
  induction k using Nat.strong_induction_on with
  | _ k ih =>
    intro i hk
    have hsplit : l ++ '\n' :: T = (l ++ ['\n']) ++ T := by simp
    have hlen : l.length + 1 + i = (l ++ ['\n']).length + i := by simp
    have hdrop : (l ++ '\n' :: T).drop (l.length + 1 + i) = T.drop i := by
      rw [hsplit, hlen, List.drop_append]
    have htake : (l ++ '\n' :: T).take (l.length + 1 + i) = l ++ '\n' :: T.take i := by
      rw [hsplit, hlen, List.take_append]
      simp
    conv_lhs => rw [findAux.eq_def]
    rw [hdrop]
    simp only []
    split
    · rename_i hm
      conv_rhs => rw [findAux.eq_def]
      rw [if_pos hm, htake]
    · rename_i hm
      split
      · rename_i hj
        conv_rhs => rw [findAux.eq_def]
        rw [if_neg hm, hj]
      · rename_i j hj
        have hb := idxOf?_bound hj
        simp only [newlineMarker_length, List.length_drop] at hb
        have harith : l.length + 1 + i + (j + 1) = l.length + 1 + (i + (j + 1)) := by omega
        rw [harith, ih (T.length - (i + (j + 1))) (by omega) _ rfl]
        conv_rhs => rw [findAux.eq_def]
        rw [if_neg hm, hj]

end Txtar

namespace Txtar

theorem idxOf?_cons (pat : List Char) (c : Char) (r : List Char) :
    idxOf? pat (c :: r)
      = if pat.isPrefixOf (c :: r) then some 0 else (idxOf? pat r).map (· + 1) := rfl

theorem findAux_no_candidates {T : List Char} (hpre : marker.isPrefixOf T = false)
    (hidx : idxOf? newlineMarker T = none) : findAux T 0 = (T, [], none) := by
  rw [findAux.eq_def, List.drop_zero]
  have hm := isMarker_not_prefixed (d := T) (by simp [hpre])
  rw [hm]
  simp only [ne_eq, not_true_eq_false, if_false, reduceIte]
  rw [hidx]

theorem findAux_zero_step {T : List Char} (hpre : marker.isPrefixOf T = false)
    {q : Nat} (hidx : idxOf? newlineMarker T = some q) :
    findAux T 0 = findAux T (0 + (q + 1)) := by
  conv_lhs => rw [findAux.eq_def]
  rw [List.drop_zero]
  have hm := isMarker_not_prefixed (d := T) (by simp [hpre])
  rw [hm]
  simp only [ne_eq, not_true_eq_false, if_false, reduceIte]
  rw [hidx]

/-- Scanning text that begins with one complete non-marker line: the line
joins the `before` part and the scan of the remainder decides the rest. -/
theorem findAux_cons_line {l : List Char} (hnl : '\n' ∉ l)
    (hsafe : markerNameOfLine l = []) (T : List Char) :
    findFileMarker (l ++ '\n' :: T)
      = (l ++ '\n' :: (findFileMarker T).1, (findFileMarker T).2) := by
  unfold findFileMarker
  conv_lhs => rw [findAux.eq_def]
  rw [List.drop_zero]
  have hm : (isMarker (l ++ '\n' :: T)).1 = [] := by
    rw [isMarker_line_eval hnl]
    split
    · simp [hsafe]
    · rfl
  rw [if_neg (by simp [hm])]
  rw [@idxOf?_append_head_not_mem newlineMarker '\n' rfl l hnl ('\n' :: T)]
  cases hX : idxOf? newlineMarker ('\n' :: T) with
  | none =>
      simp only [Option.map_none']
      rw [idxOf?_cons] at hX
      have hps : newlineMarker.isPrefixOf ('\n' :: T) = false := by
        by_contra hcon
        rw [Bool.not_eq_false] at hcon
        rw [if_pos hcon] at hX
        cases hX
      rw [if_neg (by simp [hps])] at hX
      have hTidx : idxOf? newlineMarker T = none := by
        cases h : idxOf? newlineMarker T with
        | none => rfl
        | some v => rw [h] at hX; cases hX
      have hTpre : marker.isPrefixOf T = false := by
        rw [newlineMarker_cons_eval] at hps
        exact hps
      rw [findAux_no_candidates hTpre hTidx]
  | some q =>
      simp only [Option.map_some']
      have harith : 0 + (q + l.length + 1) = l.length + 1 + q := by omega
      rw [harith, findAux_shift l T q]
      rcases Nat.eq_zero_or_pos q with hq | hq
      · subst hq
        rfl
      · obtain ⟨q', rfl⟩ : ∃ q', q = q' + 1 := ⟨q - 1, by omega⟩
        rw [idxOf?_cons] at hX
        have hps : newlineMarker.isPrefixOf ('\n' :: T) = false := by
          by_contra hcon
          rw [Bool.not_eq_false] at hcon
          rw [if_pos hcon] at hX
          cases hX
        rw [if_neg (by simp [hps])] at hX
        have hTidx : idxOf? newlineMarker T = some q' := by
          cases h : idxOf? newlineMarker T with
          | none => rw [h] at hX; cases hX
          | some v =>
              rw [h] at hX
              simp only [Option.map_some'] at hX
              cases hX
              rfl
        have hTpre : marker.isPrefixOf T = false := by
          rw [newlineMarker_cons_eval] at hps
          exact hps
        rw [show findAux T (q' + 1) = findAux T (0 + (q' + 1)) from by rw [Nat.zero_add],
            ← findAux_zero_step hTpre hTidx]

end Txtar

namespace Txtar

theorem findFileMarker_nil : findFileMarker [] = ([], [], none) := by
  show findAux [] 0 = ([], [], none)
  rw [findAux.eq_def]
  decide

/-- Scanning from a well-formed marker line for a trimmed non-empty name:
the marker is found at once, with nothing before it. -/
theorem findFileMarker_at_marker {n : List Char} (hnl : '\n' ∉ n)
    (htrim : TrimSpace n = n) (hne : n ≠ []) (rest : List Char) :
    findFileMarker ((marker ++ n ++ markerEnd) ++ '\n' :: rest) = ([], n, some rest) := by
  have hl : '\n' ∉ marker ++ n ++ markerEnd := by
    intro hmem
    rcases List.mem_append.mp hmem with hmem | hmem
    · rcases List.mem_append.mp hmem with hmem | hmem
      · exact absurd hmem (by decide)
      · exact hnl hmem
    · exact absurd hmem (by decide)
  have hcond : marker.isPrefixOf (marker ++ n ++ markerEnd) = true
      ∧ markerEnd.isSuffixOf (marker ++ n ++ markerEnd) = true
      ∧ marker.length + markerEnd.length ≤ (marker ++ n ++ markerEnd).length := by
    refine ⟨?_, ?_, ?_⟩
    · rw [List.isPrefixOf_iff_prefix, List.append_assoc]
      exact List.prefix_append marker (n ++ markerEnd)
    · rw [List.isSuffixOf_iff_suffix]
      exact List.suffix_append (marker ++ n) markerEnd
    · simp only [List.length_append, marker_length, markerEnd_length]
      omega
  have hname : markerNameOfLine (marker ++ n ++ markerEnd) = n := by
    unfold markerNameOfLine
    rw [if_pos hcond]
    have hdrop3 : (marker ++ n ++ markerEnd).drop marker.length = n ++ markerEnd := by
      rw [List.append_assoc]
      exact List.drop_left marker (n ++ markerEnd)
    have hlen : (marker ++ n ++ markerEnd).length - marker.length - markerEnd.length
        = n.length := by
      simp [marker_length, markerEnd_length]
    rw [hdrop3, hlen, List.take_left, htrim]
  have hmark : isMarker ((marker ++ n ++ markerEnd) ++ '\n' :: rest)
      = (n, some rest) := by
    rw [isMarker_line_eval hl, if_pos hcond, hname]
  show findAux _ 0 = _
  rw [findAux.eq_def, List.drop_zero, hmark]
  simp only []
  rw [if_pos (by simpa using hne)]
  rfl

/-- Complete lines the scanner never reads as markers. -/
def safeLines (L : List (List Char)) : Prop :=
  ∀ l ∈ L, '\n' ∉ l ∧ markerNameOfLine l = []

instance : DecidablePred safeLines := fun L =>
  List.decidableBAll _ L

/-- A block of safe lines is skipped whole: the scanner returns it as the
`before` part and behaves on the remainder as a fresh scan. -/
theorem findFileMarker_skip {L : List (List Char)} (hL : safeLines L) (X : List Char) :
    findFileMarker (joinLines L ++ X)
      = (joinLines L ++ (findFileMarker X).1, (findFileMarker X).2) := by
  induction L with
  | nil => simp [joinLines]
  | cons l ls ih =>
      have h1 := hL l (by simp)
      have hls : safeLines ls := fun x hx => hL x (by simp [hx])
      have hshape : joinLines (l :: ls) ++ X = l ++ '\n' :: (joinLines ls ++ X) := by
        simp [joinLines]
      rw [hshape, findAux_cons_line h1.1 h1.2, ih hls]
      simp [joinLines]

end Txtar

namespace Txtar

theorem linesOf_no_nl : ∀ {s : List Char}, ∀ l ∈ linesOf s, '\n' ∉ l := by
  intro s
  induction s with
  | nil => intro l hl; cases hl
  | cons c rest ih =>
      intro l hl
      unfold linesOf at hl
      by_cases hc : c = '\n'
      · rw [if_pos hc] at hl
        rcases List.mem_cons.mp hl with h | h
        · subst h; intro hmem; cases hmem
        · exact ih l h
      · rw [if_neg hc] at hl
        cases hrest : linesOf rest with
        | nil =>
            rw [hrest] at hl
            rcases List.mem_cons.mp hl with h | h
            · subst h
              intro hmem
              rcases List.mem_cons.mp hmem with h | h
              · exact hc h.symm
              · cases h
            · cases h
        | cons x xs =>
            rw [hrest] at hl
            rcases List.mem_cons.mp hl with h | h
            · subst h
              intro hmem
              rcases List.mem_cons.mp hmem with h | h
              · exact hc h.symm
              · exact ih x (by rw [hrest]; exact List.mem_cons_self x xs) h
            · exact ih l (by rw [hrest]; exact List.mem_cons_of_mem x h)

theorem joinLines_linesOf : ∀ {s : List Char}, s.getLast? = some '\n' →
    joinLines (linesOf s) = s := by
  intro s
  induction s with
  | nil => intro h; cases h
  | cons c rest ih =>
      intro h
      by_cases hrest : rest = []
      · subst hrest
        simp at h
        subst h
        rfl
      · have hlast : rest.getLast? = some '\n' := by
          cases rest with
          | nil => exact absurd rfl hrest
          | cons d ds => rw [List.getLast?_cons_cons] at h; exact h
        have hjoin := ih hlast
        unfold linesOf
        by_cases hc : c = '\n'
        · rw [if_pos hc]
          show ([] ++ ['\n']) ++ joinLines (linesOf rest) = c :: rest
          rw [hjoin, hc]
          rfl
        · rw [if_neg hc]
          cases hlr : linesOf rest with
          | nil =>
              rw [hlr] at hjoin
              exact absurd (by simpa [joinLines] using hjoin.symm) hrest
          | cons x xs =>
              rw [hlr] at hjoin
              have hjoin2 : x ++ '\n' :: joinLines xs = rest := by
                simpa [joinLines] using hjoin
              show ((c :: x) ++ ['\n']) ++ joinLines xs = c :: rest
              simp only [List.cons_append, List.append_assoc]
              simpa using hjoin2

theorem replaceCRLF_of_no_cr : ∀ {s : List Char}, '\r' ∉ s → replaceCRLF s = s := by
  suffices H : ∀ k s, s.length ≤ k → '\r' ∉ s → replaceCRLF s = s by
    exact fun {s} h => H s.length s le_rfl h
  intro k
  induction k with
  | zero =>
      intro s hs _
      have h0 : s = [] := List.length_eq_zero.mp (by omega)
      subst h0
      rfl
  | succ k ih =>
      intro s hs hcr
      match s with
      | [] => rfl
      | [c] => rfl
      | c :: d :: rest =>
          have hc : ¬ (c = '\r' ∧ d = '\n') := by
            rintro ⟨hc, _⟩
            exact hcr (by simp [hc])
          have hcr' : '\r' ∉ d :: rest := fun hmem => hcr (List.mem_cons_of_mem c hmem)
          unfold replaceCRLF
          rw [if_neg hc, ih (d :: rest) (by simp at hs ⊢; omega) hcr']

/-! ## Rendering archives back to text, for the round-trip arguments -/

/-- One serialized file entry: the marker line for `n`, its newline, then
the content text `c`. -/
def chunkOf (n c : List Char) : List Char := (marker ++ n ++ markerEnd) ++ '\n' :: c

/-- The file section of a serialized archive, entry after entry. -/
def renderBody (entries : List (List Char × List Char)) : List Char :=
  entries.flatMap (fun e => chunkOf e.1 e.2)

/-- A usable file name: non-empty, already trimmed, single-line, CR-free. -/
def goodName (n : List Char) : Prop :=
  n ≠ [] ∧ TrimSpace n = n ∧ '\n' ∉ n ∧ '\r' ∉ n

/-- Content text the scanner passes over: newline-terminated safe lines,
with no CR. -/
def goodBody (c : List Char) : Prop :=
  safeLines (linesOf c) ∧ joinLines (linesOf c) = c ∧ '\r' ∉ c

instance : DecidablePred goodName := fun n => by
  unfold goodName
  infer_instance

instance : DecidablePred goodBody := fun c => by
  unfold goodBody
  infer_instance

/-- Inserting a list of (name, contents) pairs left to right, as the parse
loop stores them. -/
def insertList (files : List (List Char × List Char))
    (es : List (List Char × List Char)) : List (List Char × List Char) :=
  es.foldl (fun m e => mapInsert e.1 e.2 m) files

end Txtar

namespace Txtar

/-- Scanning a block of good content with no marker after it: the scan
returns the whole block with no name and a `nil` remainder. -/
theorem findFileMarker_all_safe {c : List Char} (hc : goodBody c) :
    findFileMarker c = (c, [], none) := by
  have h := findFileMarker_skip hc.1 []
  rw [findFileMarker_nil] at h
  simpa [hc.2.1] using h

/-- Scanning a good content block followed by serialized entries: the
block is the `before` part, the first entry's name is found, and the
remainder starts at that entry's content. -/
theorem findFileMarker_render {c : List Char} (hc : goodBody c)
    {e : List Char × List Char} (he : goodName e.1)
    (es : List (List Char × List Char)) :
    findFileMarker (c ++ renderBody (e :: es)) = (c, e.1, some (e.2 ++ renderBody es)) := by
  have hX : findFileMarker (chunkOf e.1 e.2 ++ renderBody es)
      = ([], e.1, some (e.2 ++ renderBody es)) := by
    have hshape : chunkOf e.1 e.2 ++ renderBody es
        = (marker ++ e.1 ++ markerEnd) ++ '\n' :: (e.2 ++ renderBody es) := by
      simp [chunkOf]
    rw [hshape]
    exact findFileMarker_at_marker he.2.2.1 he.2.1 he.1 _
  have h2 := findFileMarker_skip (L := linesOf c) hc.1 (chunkOf e.1 e.2 ++ renderBody es)
  rw [hX, hc.2.1] at h2
  have hdata : c ++ renderBody (e :: es)
      = c ++ (chunkOf e.1 e.2 ++ renderBody es) := by
    simp [renderBody]
  rw [hdata]
  simpa using h2

/-- The parse loop over a pending name, its content block, and the
remaining serialized entries: it stores each entry's trimmed,
newline-normalized content under its name, in order. -/
theorem parseLoop_render :
    ∀ (entries : List (List Char × List Char)),
      (∀ e ∈ entries, goodName e.1 ∧ goodBody e.2) →
    ∀ (name c : List Char), name ≠ [] → goodBody c →
    ∀ files,
    parseLoop name (c ++ renderBody entries) files
      = insertList (mapInsert name (fixNL (TrimSpace c)) files)
          (entries.map fun e => (e.1, fixNL (TrimSpace e.2))) := by
  intro entries
  induction entries with
  | nil =>
      intro _ name c hname hc files
      rw [show renderBody [] = [] from rfl, List.append_nil]
      rw [parseLoop.eq_def, if_neg hname, findFileMarker_all_safe hc]
      dsimp only
      rw [parseLoop.eq_def, if_pos rfl]
      rfl
  | cons e es ih =>
      intro hent name c hname hc files
      have hegood := hent e (List.mem_cons_self e es)
      have hes : ∀ x ∈ es, goodName x.1 ∧ goodBody x.2 :=
        fun x hx => hent x (List.mem_cons_of_mem e hx)
      have hffm := findFileMarker_render hc hegood.1 es
      rw [parseLoop.eq_def, if_neg hname, hffm]
      simp only [Option.getD_some]
      rw [ih hes e.1 e.2 hegood.1.1 hegood.2]
      rfl

end Txtar

namespace Txtar

theorem idxOf?_eval (pat s : List Char) :
    idxOf? pat s = if pat.isPrefixOf s then some 0
      else (match s with
            | [] => none
            | _ :: r => (idxOf? pat r).map (· + 1)) := by
  cases s <;> rfl

theorem containsSeq_append_pat (pat x y : List Char) :
    containsSeq pat (x ++ (pat ++ y)) = true := by
  induction x with
  | nil =>
      unfold containsSeq
      rw [List.nil_append, idxOf?_eval,
          if_pos (List.isPrefixOf_iff_prefix.mpr (List.prefix_append pat y))]
      rfl
  | cons c x' ih =>
      unfold containsSeq
      rw [List.cons_append, idxOf?_eval]
      split
      · rfl
      · unfold containsSeq at ih
        cases h : idxOf? pat (x' ++ (pat ++ y)) with
        | none => rw [h] at ih; cases ih
        | some v => simp [h]

theorem no_cr_chunkOf {e : List Char × List Char}
    (he : goodName e.1 ∧ goodBody e.2) : '\r' ∉ chunkOf e.1 e.2 := by
  intro hmem
  unfold chunkOf at hmem
  rcases List.mem_append.mp hmem with hmem | hmem
  · rcases List.mem_append.mp hmem with hmem | hmem
    · rcases List.mem_append.mp hmem with hmem | hmem
      · exact absurd hmem (by decide)
      · exact he.1.2.2.2 hmem
    · exact absurd hmem (by decide)
  · rcases List.mem_cons.mp hmem with hmem | hmem
    · cases hmem
    · exact he.2.2.2 hmem

theorem no_cr_renderBody {entries : List (List Char × List Char)}
    (hent : ∀ e ∈ entries, goodName e.1 ∧ goodBody e.2) :
    '\r' ∉ renderBody entries := by
  induction entries with
  | nil => simp [renderBody]
  | cons e es ih =>
      intro hmem
      have hsplit : renderBody (e :: es) = chunkOf e.1 e.2 ++ renderBody es := by
        simp [renderBody]
      rw [hsplit] at hmem
      rcases List.mem_append.mp hmem with hmem | hmem
      · exact no_cr_chunkOf (hent e (List.mem_cons_self e es)) hmem
      · exact ih (fun x hx => hent x (List.mem_cons_of_mem e hx)) hmem

/-- What `Parse` does to a serialized archive: a good comment block (its
trailing blank line included) followed by at least one well-formed entry
parses successfully into the trimmed comment and the map of trimmed,
newline-normalized contents keyed by name, later duplicates overwriting
earlier ones. -/
theorem parse_render {CL : List Char} (hCL : goodBody CL)
    {entries : List (List Char × List Char)} (hne : entries ≠ [])
    (hent : ∀ e ∈ entries, goodName e.1 ∧ goodBody e.2) :
    Parse (CL ++ renderBody entries)
      = .ok { files := insertList [] (entries.map fun e => (e.1, fixNL (TrimSpace e.2))),
              comment := TrimSpace CL } := by
  obtain ⟨e, es, rfl⟩ : ∃ e es, entries = e :: es := by
    cases entries with
    | nil => exact absurd rfl hne
    | cons e es => exact ⟨e, es, rfl⟩
  have hegood := hent e (List.mem_cons_self e es)
  have hlen : (CL ++ renderBody (e :: es)).length ≠ 0 := by
    simp [renderBody, chunkOf]
  have hcont : containsSeq marker (CL ++ renderBody (e :: es)) = true := by
    have hshape : CL ++ renderBody (e :: es)
        = CL ++ (marker ++ (e.1 ++ markerEnd ++ '\n' :: (e.2 ++ renderBody es))) := by
      simp [renderBody, chunkOf]
    rw [hshape]
    exact containsSeq_append_pat marker CL _
  have hcr : '\r' ∉ CL ++ renderBody (e :: es) := by
    intro hmem
    rcases List.mem_append.mp hmem with hmem | hmem
    · exact hCL.2.2 hmem
    · exact no_cr_renderBody hent hmem
  unfold Parse
  rw [if_neg hlen, if_neg (by simp [hcont]), replaceCRLF_of_no_cr hcr,
      findFileMarker_render hCL hegood.1 es]
  dsimp only
  rw [parseLoop_render es (fun x hx => hent x (List.mem_cons_of_mem e hx))
      e.1 e.2 hegood.1.1 hegood.2 []]
  rfl

end Txtar

namespace TxtarAdd

open Txtar

theorem findFileMarker_safe_add {c : List Char} (hc : goodBody c) :
    findFileMarker c = (fixNL c, [], none) := by
  unfold findFileMarker
  have h : Txtar.findAux c 0 = (c, [], none) := Txtar.findFileMarker_all_safe hc
  rw [h]
  simp

theorem findFileMarker_render_add {c : List Char} (hc : goodBody c)
    {e : List Char × List Char} (he : goodName e.1)
    (es : List (List Char × List Char)) :
    findFileMarker (c ++ renderBody (e :: es)) = (c, e.1, some (e.2 ++ renderBody es)) := by
  unfold findFileMarker
  have h : Txtar.findAux (c ++ renderBody (e :: es)) 0
      = (c, e.1, some (e.2 ++ renderBody es)) :=
    Txtar.findFileMarker_render hc he es
  rw [h, if_neg (by simp [he.1])]

/-- The `Add`-variant parse loop over serialized entries: contents are
stored trimmed (the final block's `fixNL` is swallowed by the trim). -/
theorem parseLoop_render_add :
    ∀ (entries : List (List Char × List Char)),
      (∀ e ∈ entries, goodName e.1 ∧ goodBody e.2) →
    ∀ (name c : List Char), name ≠ [] → goodBody c →
    ∀ files,
    parseLoop name (c ++ renderBody entries) files
      = insertList (mapInsert name (TrimSpace c) files)
          (entries.map fun e => (e.1, TrimSpace e.2)) := by
  intro entries
  induction entries with
  | nil =>
      intro _ name c hname hc files
      rw [show renderBody [] = [] from rfl, List.append_nil]
      rw [parseLoop.eq_def, if_neg hname, findFileMarker_safe_add hc]
      simp only [TrimSpace_fixNL]
      rw [parseLoop.eq_def, if_pos rfl]
      rfl
  | cons e es ih =>
      intro hent name c hname hc files
      have hegood := hent e (List.mem_cons_self e es)
      have hes : ∀ x ∈ es, goodName x.1 ∧ goodBody x.2 :=
        fun x hx => hent x (List.mem_cons_of_mem e hx)
      rw [parseLoop.eq_def, if_neg hname, findFileMarker_render_add hc hegood.1 es]
      simp only [Option.getD_some]
      rw [ih hes e.1 e.2 hegood.1.1 hegood.2]
      rfl

/-- What the `Add`-variant `Parse` does to a serialized archive: the
trimmed comment and the map of trimmed contents keyed by name, later
duplicates overwriting earlier ones. -/
theorem parse_render_add {CL : List Char} (hCL : goodBody CL)
    {entries : List (List Char × List Char)} (hne : entries ≠ [])
    (hent : ∀ e ∈ entries, goodName e.1 ∧ goodBody e.2) :
    Parse (CL ++ renderBody entries)
      = .ok { files := insertList [] (entries.map fun e => (e.1, TrimSpace e.2)),
              comment := TrimSpace CL } := by
  obtain ⟨e, es, rfl⟩ : ∃ e es, entries = e :: es := by
    cases entries with
    | nil => exact absurd rfl hne
    | cons e es => exact ⟨e, es, rfl⟩
  have hegood := hent e (List.mem_cons_self e es)
  have hlen : (CL ++ renderBody (e :: es)).length ≠ 0 := by
    simp [renderBody, chunkOf]
  have hcont : containsSeq marker (CL ++ renderBody (e :: es)) = true := by
    have hshape : CL ++ renderBody (e :: es)
        = CL ++ (marker ++ (e.1 ++ markerEnd ++ '\n' :: (e.2 ++ renderBody es))) := by
      simp [renderBody, chunkOf]
    rw [hshape]
    exact containsSeq_append_pat marker CL _
  unfold Parse
  rw [if_neg hlen, if_neg (by simp [hcont]), findFileMarker_render_add hCL hegood.1 es]
  simp only [Option.getD_some]
  rw [parseLoop_render_add es (fun x hx => hent x (List.mem_cons_of_mem e hx))
      e.1 e.2 hegood.1.1 hegood.2 []]
  rfl

end TxtarAdd

namespace Txtar

/-! ## More map lemmas -/

theorem mapGet_nil (k : List Char) : mapGet k [] = none := rfl

theorem mapGet_cons (k k' v' : List Char) (r : List (List Char × List Char)) :
    mapGet k ((k', v') :: r) = if k = k' then some v' else mapGet k r := rfl

theorem mapGet_append (k : List Char) (m1 m2 : List (List Char × List Char)) :
    mapGet k (m1 ++ m2)
      = match mapGet k m1 with
        | some v => some v
        | none => mapGet k m2 := by
  induction m1 with
  | nil => rfl
  | cons e r ih =>
      obtain ⟨k', v'⟩ := e
      rw [List.cons_append, mapGet_cons, mapGet_cons]
      by_cases h : k = k'
      · simp [h]
      · simp only [if_neg h]
        exact ih

theorem mapGet_mem {k v : List Char} :
    ∀ {m : List (List Char × List Char)}, mapGet k m = some v → (k, v) ∈ m := by
  intro m
  induction m with
  | nil => intro h; cases h
  | cons e r ih =>
      obtain ⟨k', v'⟩ := e
      intro h
      unfold mapGet at h
      by_cases h2 : k = k'
      · rw [if_pos h2] at h
        cases h
        simp [h2]
      · rw [if_neg h2] at h
        exact List.mem_cons_of_mem _ (ih h)

theorem mapGet_eq_none_iff {k : List Char} {m : List (List Char × List Char)} :
    mapGet k m = none ↔ k ∉ m.map Prod.fst := by
  induction m with
  | nil => simp [mapGet]
  | cons e r ih =>
      obtain ⟨k', v'⟩ := e
      unfold mapGet
      by_cases h : k = k'
      · simp [h]
      · simp [h, ih]

theorem mapGet_of_mem_nodup {k v : List Char} :
    ∀ {m : List (List Char × List Char)}, (m.map Prod.fst).Nodup → (k, v) ∈ m →
      mapGet k m = some v := by
  intro m
  induction m with
  | nil => intro _ h; cases h
  | cons e r ih =>
      obtain ⟨k', v'⟩ := e
      intro hnd hmem
      have hnd2 : (r.map Prod.fst).Nodup := (List.nodup_cons.mp hnd).2
      rcases List.mem_cons.mp hmem with h | h
      · cases h
        unfold mapGet
        rw [if_pos rfl]
      · have hk : k ≠ k' := by
          intro hkk
          subst hkk
          exact (List.nodup_cons.mp hnd).1
            (List.mem_map.mpr ⟨(k, v), h, rfl⟩)
        unfold mapGet
        rw [if_neg hk]
        exact ih hnd2 h

theorem keys_mapInsert (k v : List Char) (m : List (List Char × List Char)) :
    (mapInsert k v m).map Prod.fst
      = if mapGet k m = none then m.map Prod.fst ++ [k] else m.map Prod.fst := by
  induction m with
  | nil => simp [mapInsert, mapGet]
  | cons e r ih =>
      obtain ⟨k', v'⟩ := e
      unfold mapInsert mapGet
      by_cases h : k = k'
      · simp [h]
      · simp only [if_neg h]
        simp only [List.map_cons]
        rw [ih]
        split <;> simp

theorem nodup_keys_mapInsert {k v : List Char} {m : List (List Char × List Char)}
    (h : (m.map Prod.fst).Nodup) : ((mapInsert k v m).map Prod.fst).Nodup := by
  rw [keys_mapInsert]
  split
  · rename_i hnone
    have : k ∉ m.map Prod.fst := mapGet_eq_none_iff.mp hnone
    simp [List.nodup_append, h, this]
  · exact h

theorem mem_keys_mapInsert {x k v : List Char} {m : List (List Char × List Char)} :
    x ∈ (mapInsert k v m).map Prod.fst ↔ x = k ∨ x ∈ m.map Prod.fst := by
  rw [keys_mapInsert]
  split
  · simp [or_comm]
  · rename_i hsome
    constructor
    · intro h; right; exact h
    · rintro (rfl | h)
      · by_contra hcon
        exact hsome (mapGet_eq_none_iff.mpr hcon)
      · exact h

theorem nodup_keys_insertList :
    ∀ (es m : List (List Char × List Char)), (m.map Prod.fst).Nodup →
      ((insertList m es).map Prod.fst).Nodup := by
  intro es
  induction es with
  | nil => exact fun m h => h
  | cons e r ih =>
      intro m h
      exact ih _ (nodup_keys_mapInsert h)

theorem mem_keys_insertList {x : List Char} :
    ∀ (es m : List (List Char × List Char)),
      (x ∈ (insertList m es).map Prod.fst ↔ x ∈ m.map Prod.fst ∨ x ∈ es.map Prod.fst) := by
  intro es
  induction es with
  | nil => simp [insertList]
  | cons e r ih =>
      intro m
      show x ∈ (insertList (mapInsert e.1 e.2 m) r).map Prod.fst ↔ _
      rw [ih]
      rw [mem_keys_mapInsert]
      simp
      tauto

theorem mapGet_insertList (k : List Char) :
    ∀ (es m : List (List Char × List Char)),
      mapGet k (insertList m es)
        = match mapGet k es.reverse with
          | some v => some v
          | none => mapGet k m := by
  intro es
  induction es with
  | nil => intro m; rfl
  | cons e r ih =>
      intro m
      show mapGet k (insertList (mapInsert e.1 e.2 m) r) = _
      rw [ih]
      have hrev : (e :: r).reverse = r.reverse ++ [e] := by simp
      rw [hrev, mapGet_append]
      cases h : mapGet k r.reverse with
      | some v => rfl
      | none =>
          by_cases hk : k = e.1
          · subst hk
            simp [mapGet, mapGet_insert_self]
          · rw [mapGet_insert_ne hk]
            simp [mapGet, hk]

theorem insertList_of_fresh :
    ∀ (es m : List (List Char × List Char)), (es.map Prod.fst).Nodup →
      (∀ x ∈ es.map Prod.fst, mapGet x m = none) →
      insertList m es = m ++ es := by
  intro es
  induction es with
  | nil => intro m _ _; simp [insertList]
  | cons e r ih =>
      intro m hnd hfresh
      show insertList (mapInsert e.1 e.2 m) r = _
      have h1 : mapGet e.1 m = none := hfresh e.1 (by simp)
      rw [mapInsert_of_get_none h1]
      rw [ih (m ++ [(e.1, e.2)]) (List.nodup_cons.mp hnd).2]
      · simp
      · intro x hx
        rw [mapGet_append]
        rw [hfresh x (by simp [hx])]
        have hxk : x ≠ e.1 := by
          intro hxx
          subst hxx
          exact (List.nodup_cons.mp hnd).1 hx
        simp [mapGet, hxk]

theorem mapGet_map_keyed {g : List Char → List Char} {k : List Char} :
    ∀ {names : List (List Char)}, k ∈ names →
      mapGet k (names.map fun nm => (nm, g nm)) = some (g k) := by
  intro names
  induction names with
  | nil => intro h; cases h
  | cons nm ns ih =>
      intro hmem
      show mapGet k ((nm, g nm) :: ns.map _) = _
      unfold mapGet
      by_cases h : k = nm
      · simp [h]
      · rw [if_neg h]
        exact ih (by rcases List.mem_cons.mp hmem with h2 | h2; exact absurd h2 h; exact h2)

theorem mapGet_perm {k : List Char} {m1 m2 : List (List Char × List Char)}
    (hp : m1.Perm m2) (hnd : (m1.map Prod.fst).Nodup) :
    mapGet k m1 = mapGet k m2 := by
  have hnd2 : (m2.map Prod.fst).Nodup := ((hp.map Prod.fst).nodup_iff).mp hnd
  cases h : mapGet k m1 with
  | some v =>
      exact (mapGet_of_mem_nodup hnd2 (hp.mem_iff.mp (mapGet_mem h))).symm
  | none =>
      have : k ∉ m2.map Prod.fst := by
        intro hcon
        exact mapGet_eq_none_iff.mp h ((hp.map Prod.fst).mem_iff.mpr hcon)
      exact (mapGet_eq_none_iff.mpr this).symm

end Txtar

namespace Txtar

/-! ## Scanner characterization: arbitrary safe text and raw marker names

The claim about duplicate markers ranges over inputs whose marker names
may carry padding (`"--  a  --"` trims to the same name as `"-- a --"`)
and whose final content block may lack its terminating newline.  The
lemmas here extend the line-skipping characterization to that shape. -/

theorem renderBody_nil : renderBody [] = [] := rfl

theorem renderBody_cons (e : List Char × List Char)
    (es : List (List Char × List Char)) :
    renderBody (e :: es) = chunkOf e.1 e.2 ++ renderBody es := rfl

theorem idxOfNL_none : ∀ {l : List Char}, '\n' ∉ l → idxOfNL l = none := by
  intro l
  induction l with
  | nil =>
      intro _
      rfl
  | cons c r ih =>
      intro h
      have hc : c ≠ '\n' := fun hh => h (by simp [hh])
      have hr : '\n' ∉ r := fun hh => h (by simp [hh])
      unfold idxOfNL
      rw [if_neg hc, ih hr]
      rfl

theorem idxOf?_newlineMarker_none : ∀ {l : List Char}, '\n' ∉ l →
    idxOf? newlineMarker l = none := by
  intro l
  induction l with
  | nil =>
      intro _
      rfl
  | cons c r ih =>
      intro h
      have hc : c ≠ '\n' := fun hh => h (by simp [hh])
      have hr : '\n' ∉ r := fun hh => h (by simp [hh])
      rw [idxOf?_cons]
      have hpre : newlineMarker.isPrefixOf (c :: r) = false := by
        show ('\n' :: marker).isPrefixOf (c :: r) = false
        rw [List.isPrefixOf_cons₂]
        simp [Ne.symm hc]
      rw [hpre, ih hr]
      rfl

/-- `isMarker` on data containing no newline: the whole data is the
candidate line and there is never a remainder. -/
theorem isMarker_noNL_eval {l : List Char} (hnl : '\n' ∉ l) :
    isMarker l = (markerNameOfLine l, none) := by
  unfold isMarker
  rw [idxOfNL_none hnl]
  by_cases hp : marker.isPrefixOf l = true
  · rw [if_pos hp]
    dsimp only
    by_cases hs : markerEnd.isSuffixOf l = true ∧ marker.length + markerEnd.length ≤ l.length
    · rw [if_pos hs]
      unfold markerNameOfLine
      rw [if_pos ⟨hp, hs.1, hs.2⟩]
    · rw [if_neg hs]
      unfold markerNameOfLine
      rw [if_neg (by tauto)]
  · rw [if_neg hp]
    unfold markerNameOfLine
    rw [if_neg (by tauto)]

theorem linesOf_cons (c : Char) (rest : List Char) :
    linesOf (c :: rest)
      = if c = '\n' then [] :: linesOf rest
        else match linesOf rest with
             | [] => [[c]]
             | l :: ls => (c :: l) :: ls := rfl

theorem linesOf_no_newline : ∀ {c : List Char}, '\n' ∉ c → c ≠ [] →
    linesOf c = [c] := by
  intro c
  induction c with
  | nil =>
      intro _ hne
      cases hne rfl
  | cons a r ih =>
      intro hnl _
      have ha : a ≠ '\n' := fun hh => hnl (by simp [hh])
      have hr : '\n' ∉ r := fun hh => hnl (by simp [hh])
      by_cases hr0 : r = []
      · subst hr0
        rw [linesOf_cons, if_neg ha]
        rfl
      · rw [linesOf_cons, if_neg ha, ih hr hr0]

theorem linesOf_split : ∀ {x : List Char}, '\n' ∉ x →
    ∀ y, linesOf (x ++ '\n' :: y) = x :: linesOf y := by
  intro x
  induction x with
  | nil =>
      intro _ y
      rw [List.nil_append, linesOf_cons, if_pos rfl]
  | cons a r ih =>
      intro hnl y
      have ha : a ≠ '\n' := fun hh => hnl (by simp [hh])
      have hr : '\n' ∉ r := fun hh => hnl (by simp [hh])
      rw [List.cons_append, linesOf_cons, if_neg ha, ih hr y]

theorem split_first_nl : ∀ {c : List Char}, '\n' ∈ c →
    ∃ x y, c = x ++ '\n' :: y ∧ '\n' ∉ x := by
  intro c
  induction c with
  | nil =>
      intro h
      cases h
  | cons a r ih =>
      intro h
      by_cases ha : a = '\n'
      · subst ha
        exact ⟨[], r, rfl, by simp⟩
      · have hr : '\n' ∈ r := by
          rcases List.mem_cons.mp h with h1 | h1
          · exact absurd h1.symm ha
          · exact h1
        obtain ⟨x, y, hxy, hx⟩ := ih hr
        refine ⟨a :: x, y, by rw [hxy, List.cons_append], ?_⟩
        intro hmem
        rcases List.mem_cons.mp hmem with h2 | h2
        · exact ha h2.symm
        · exact hx h2

/-- The scanner on text all of whose lines are safe, the final line
possibly lacking its terminating newline: no marker is found and the
whole input is returned. -/
theorem findFileMarker_safe_lines :
    ∀ {c : List Char}, safeLines (linesOf c) → findFileMarker c = (c, [], none) := by
  suffices H : ∀ k c, c.length ≤ k → safeLines (linesOf c) →
      findFileMarker c = (c, [], none) by
    exact fun {c} h => H c.length c le_rfl h
  intro k
  induction k with
  | zero =>
      intro c hlen _
      have h0 : c = [] := List.length_eq_zero.mp (by omega)
      subst h0
      exact findFileMarker_nil
  | succ k ih =>
      intro c hlen hsafe
      by_cases hmem : '\n' ∈ c
      · obtain ⟨x, y, rfl, hx⟩ := split_first_nl hmem
        have hlines := linesOf_split hx y
        have hxsafe := hsafe x (by rw [hlines]; exact List.mem_cons_self x _)
        have hysafe : safeLines (linesOf y) :=
          fun l hl => hsafe l (by rw [hlines]; exact List.mem_cons_of_mem x hl)
        have hylen : y.length ≤ k := by
          simp only [List.length_append, List.length_cons] at hlen
          omega
        rw [findAux_cons_line hx hxsafe.2 y, ih y hylen hysafe]
      · by_cases hc0 : c = []
        · subst hc0
          exact findFileMarker_nil
        · have hlines := linesOf_no_newline hmem hc0
          have hcsafe := hsafe c (by rw [hlines]; exact List.mem_cons_self c [])
          show findAux c 0 = (c, [], none)
          rw [findAux.eq_def, List.drop_zero]
          have hm : isMarker c = ([], none) := by
            rw [isMarker_noNL_eval hmem, hcsafe.2]
          rw [hm]
          simp only [ne_eq, not_true_eq_false, if_false, reduceIte]
          rw [idxOf?_newlineMarker_none hmem]

/-- Scanning from a well-formed marker line whose raw name may carry
surrounding spaces: the marker is found at once with the trimmed name. -/
theorem findFileMarker_at_marker_raw {r : List Char} (hnl : '\n' ∉ r)
    (hne : TrimSpace r ≠ []) (rest : List Char) :
    findFileMarker ((marker ++ r ++ markerEnd) ++ '\n' :: rest)
      = ([], TrimSpace r, some rest) := by
  have hl : '\n' ∉ marker ++ r ++ markerEnd := by
    intro hmem
    rcases List.mem_append.mp hmem with hmem | hmem
    · rcases List.mem_append.mp hmem with hmem | hmem
      · exact absurd hmem (by decide)
      · exact hnl hmem
    · exact absurd hmem (by decide)
  have hcond : marker.isPrefixOf (marker ++ r ++ markerEnd) = true
      ∧ markerEnd.isSuffixOf (marker ++ r ++ markerEnd) = true
      ∧ marker.length + markerEnd.length ≤ (marker ++ r ++ markerEnd).length := by
    refine ⟨?_, ?_, ?_⟩
    · rw [List.isPrefixOf_iff_prefix, List.append_assoc]
      exact List.prefix_append marker (r ++ markerEnd)
    · rw [List.isSuffixOf_iff_suffix]
      exact List.suffix_append (marker ++ r) markerEnd
    · simp only [List.length_append, marker_length, markerEnd_length]
      omega
  have hname : markerNameOfLine (marker ++ r ++ markerEnd) = TrimSpace r := by
    unfold markerNameOfLine
    rw [if_pos hcond]
    have hdrop3 : (marker ++ r ++ markerEnd).drop marker.length = r ++ markerEnd := by
      rw [List.append_assoc]
      exact List.drop_left marker (r ++ markerEnd)
    have hlen : (marker ++ r ++ markerEnd).length - marker.length - markerEnd.length
        = r.length := by
      simp [marker_length, markerEnd_length]
    rw [hdrop3, hlen, List.take_left]
  have hmark : isMarker ((marker ++ r ++ markerEnd) ++ '\n' :: rest)
      = (TrimSpace r, some rest) := by
    rw [isMarker_line_eval hl, if_pos hcond, hname]
  show findAux _ 0 = _
  rw [findAux.eq_def, List.drop_zero, hmark]
  simp only []
  rw [if_pos (by simpa using hne)]
  rfl

/-- Scanning a good content block followed by a raw-named marker line and
an arbitrary tail: the block is the `before` part, the trimmed name is
found, and the remainder starts at the tail. -/
theorem findFileMarker_chunk_raw {c : List Char} (hc : goodBody c)
    {r : List Char} (hne : TrimSpace r ≠ []) (hnl : '\n' ∉ r) (b X : List Char) :
    findFileMarker (c ++ (chunkOf r b ++ X)) = (c, TrimSpace r, some (b ++ X)) := by
  have hX : findFileMarker (chunkOf r b ++ X) = ([], TrimSpace r, some (b ++ X)) := by
    have hshape : chunkOf r b ++ X = (marker ++ r ++ markerEnd) ++ '\n' :: (b ++ X) := by
      simp [chunkOf]
    rw [hshape]
    exact findFileMarker_at_marker_raw hnl hne (b ++ X)
  have h2 := findFileMarker_skip hc.1 (chunkOf r b ++ X)
  rw [hX, hc.2.1] at h2
  simpa using h2

end Txtar

namespace TxtarAdd

open Txtar

theorem findFileMarker_chunk_raw_add {c : List Char} (hc : goodBody c)
    {r : List Char} (hne : TrimSpace r ≠ []) (hnl : '\n' ∉ r) (b X : List Char) :
    findFileMarker (c ++ (chunkOf r b ++ X)) = (c, TrimSpace r, some (b ++ X)) := by
  unfold findFileMarker
  have h : Txtar.findAux (c ++ (chunkOf r b ++ X)) 0 = (c, TrimSpace r, some (b ++ X)) :=
    Txtar.findFileMarker_chunk_raw hc hne hnl b X
  rw [h, if_neg (by simp [hne])]

theorem findFileMarker_loose_add {c : List Char} (hsafe : safeLines (linesOf c)) :
    findFileMarker c = (fixNL c, [], none) := by
  unfold findFileMarker
  have h : Txtar.findAux c 0 = (c, [], none) := Txtar.findFileMarker_safe_lines hsafe
  rw [h]
  simp

/-- The final iterations of the `Add`-variant parse loop: the pending name
is stored with the whole remaining safe text, trimmed (its `fixNL` is
swallowed by the trim), and the loop stops. -/
theorem parseLoop_last_raw (name c : List Char) (hname : name ≠ [])
    (hsafe : safeLines (linesOf c)) (files : List (List Char × List Char)) :
    parseLoop name c files = mapInsert name (TrimSpace c) files := by
  rw [parseLoop.eq_def, if_neg hname, findFileMarker_loose_add hsafe]
  simp only [TrimSpace_fixNL]
  rw [parseLoop.eq_def, if_pos rfl]

/-- The `Add`-variant parse loop over raw-named serialized entries, the
final content block possibly unterminated: each entry's trimmed content
is stored under its trimmed name, in order. -/
theorem parseLoop_render_raw :
    ∀ (init : List (List Char × List Char)),
      (∀ e ∈ init, (TrimSpace e.1 ≠ [] ∧ '\n' ∉ e.1) ∧ goodBody e.2) →
    ∀ (last : List Char × List Char), TrimSpace last.1 ≠ [] → '\n' ∉ last.1 →
      safeLines (linesOf last.2) →
    ∀ (name c : List Char), name ≠ [] → goodBody c →
    ∀ files,
    parseLoop name (c ++ renderBody (init ++ [last])) files
      = insertList (mapInsert name (TrimSpace c) files)
          ((init ++ [last]).map fun e => (TrimSpace e.1, TrimSpace e.2)) := by
  intro init
  induction init with
  | nil =>
      intro _ last hlne hlnl hlsafe name c hname hc files
      rw [List.nil_append, renderBody_cons]
      rw [parseLoop.eq_def, if_neg hname,
          findFileMarker_chunk_raw_add hc hlne hlnl last.2 (renderBody [])]
      simp only [Option.getD_some]
      rw [renderBody_nil, List.append_nil]
      rw [parseLoop_last_raw (TrimSpace last.1) last.2 hlne hlsafe]
      rfl
  | cons e init' ih =>
      intro hent last hlne hlnl hlsafe name c hname hc files
      have hegood := hent e (List.mem_cons_self e init')
      have hes : ∀ x ∈ init', (TrimSpace x.1 ≠ [] ∧ '\n' ∉ x.1) ∧ goodBody x.2 :=
        fun x hx => hent x (List.mem_cons_of_mem e hx)
      rw [List.cons_append, renderBody_cons]
      rw [parseLoop.eq_def, if_neg hname,
          findFileMarker_chunk_raw_add hc hegood.1.1 hegood.1.2 e.2
            (renderBody (init' ++ [last]))]
      simp only [Option.getD_some]
      rw [ih hes last hlne hlnl hlsafe (TrimSpace e.1) e.2 hegood.1.1 hegood.2]
      rfl

/-- The `Add`-variant `Parse` on a serialized archive whose marker names
may carry padding and whose final content block may lack its terminating
newline: the trimmed comment and the map of trimmed contents keyed by
trimmed name, later duplicates overwriting earlier ones. -/
theorem parse_render_raw {CL : List Char} (hCL : goodBody CL)
    (init : List (List Char × List Char))
    (hent : ∀ e ∈ init, (TrimSpace e.1 ≠ [] ∧ '\n' ∉ e.1) ∧ goodBody e.2)
    (last : List Char × List Char) (hlne : TrimSpace last.1 ≠ [])
    (hlnl : '\n' ∉ last.1) (hlsafe : safeLines (linesOf last.2)) :
    Parse (CL ++ renderBody (init ++ [last]))
      = .ok { files := insertList []
                ((init ++ [last]).map fun e => (TrimSpace e.1, TrimSpace e.2)),
              comment := TrimSpace CL } := by
  cases init with
  | nil =>
      rw [List.nil_append]
      have hlen : (CL ++ renderBody [last]).length ≠ 0 := by
        simp [renderBody, chunkOf]
      have hcont : containsSeq marker (CL ++ renderBody [last]) = true := by
        have hshape : CL ++ renderBody [last]
            = CL ++ (marker ++ (last.1 ++ markerEnd
                ++ '\n' :: (last.2 ++ renderBody []))) := by
          simp [renderBody, chunkOf]
        rw [hshape]
        exact containsSeq_append_pat marker CL _
      unfold Parse
      rw [if_neg hlen, if_neg (by simp [hcont])]
      rw [renderBody_cons]
      rw [findFileMarker_chunk_raw_add hCL hlne hlnl last.2 (renderBody [])]
      simp only [Option.getD_some]
      rw [renderBody_nil, List.append_nil]
      rw [parseLoop_last_raw (TrimSpace last.1) last.2 hlne hlsafe]
      rfl
  | cons e init' =>
      rw [List.cons_append]
      have hegood := hent e (List.mem_cons_self e init')
      have hes : ∀ x ∈ init', (TrimSpace x.1 ≠ [] ∧ '\n' ∉ x.1) ∧ goodBody x.2 :=
        fun x hx => hent x (List.mem_cons_of_mem e hx)
      have hlen : (CL ++ renderBody (e :: (init' ++ [last]))).length ≠ 0 := by
        simp [renderBody, chunkOf]
      have hcont : containsSeq marker (CL ++ renderBody (e :: (init' ++ [last]))) = true := by
        have hshape : CL ++ renderBody (e :: (init' ++ [last]))
            = CL ++ (marker ++ (e.1 ++ markerEnd
                ++ '\n' :: (e.2 ++ renderBody (init' ++ [last])))) := by
          simp [renderBody, chunkOf]
        rw [hshape]
        exact containsSeq_append_pat marker CL _
      unfold Parse
      rw [if_neg hlen, if_neg (by simp [hcont]), renderBody_cons]
      rw [findFileMarker_chunk_raw_add hCL hegood.1.1 hegood.1.2 e.2
          (renderBody (init' ++ [last]))]
      simp only [Option.getD_some]
      rw [parseLoop_render_raw init' hes last hlne hlnl hlsafe
          (TrimSpace e.1) e.2 hegood.1.1 hegood.2]
      rfl

end TxtarAdd

namespace Txtar

/-! ## Claim C10: duplicate marker names -/

/-- C10: an input made of a comment block followed by marker lines whose
raw names may carry padding, with content blocks of marker-free lines
(the final block possibly unterminated), such that at least two raw
names share the trimmed name `n`: `Parse` succeeds, maps `n` to the
trimmed content following the LAST such marker, and counts `n` once in
the file set (it is present, and the key list is duplicate-free). -/
theorem parse_duplicate_last_wins {CL : List Char} (hCL : goodBody CL)
    {init : List (List Char × List Char)}
    (hent : ∀ e ∈ init, (TrimSpace e.1 ≠ [] ∧ '\n' ∉ e.1) ∧ goodBody e.2)
    {last : List Char × List Char} (hlne : TrimSpace last.1 ≠ [])
    (hlnl : '\n' ∉ last.1) (hlsafe : safeLines (linesOf last.2))
    {n : List Char}
    (hdup : 2 ≤ (((init ++ [last]).map fun e => TrimSpace e.1).count n)) :
    ∃ a, TxtarAdd.Parse (CL ++ renderBody (init ++ [last])) = .ok a
      ∧ mapGet n a.files
          = ((init ++ [last]).reverse.find? fun e => decide (TrimSpace e.1 = n)).map
              (fun e => TrimSpace e.2)
      ∧ n ∈ a.files.map Prod.fst ∧ (a.files.map Prod.fst).Nodup := by
  refine ⟨_, TxtarAdd.parse_render_raw hCL init hent last hlne hlnl hlsafe, ?_, ?_⟩
  · rw [mapGet_insertList, ← List.map_reverse]
    have hmg : ∀ l : List (List Char × List Char),
        mapGet n (l.map fun e => (TrimSpace e.1, TrimSpace e.2))
          = (l.find? fun e => decide (TrimSpace e.1 = n)).map (fun e => TrimSpace e.2) := by
      intro l
      induction l with
      | nil => rfl
      | cons e r ih =>
          show mapGet n ((TrimSpace e.1, TrimSpace e.2) :: _) = _
          rw [mapGet_cons]
          by_cases h : n = TrimSpace e.1
          · simp [List.find?_cons, h]
          · have h2 : (decide (TrimSpace e.1 = n)) = false :=
              decide_eq_false (fun hh => h hh.symm)
            simp [List.find?_cons, h, h2, ih]
    rw [hmg]
    cases h : ((init ++ [last]).reverse.find? fun e => decide (TrimSpace e.1 = n)) <;>
      simp [h, mapGet]
  · have hmem : n ∈ (init ++ [last]).map fun e => TrimSpace e.1 := by
      by_contra hcon
      rw [List.count_eq_zero_of_not_mem hcon] at hdup
      omega
    have hkeys : n ∈ (insertList []
        ((init ++ [last]).map fun e => (TrimSpace e.1, TrimSpace e.2))).map Prod.fst := by
      rw [mem_keys_insertList]
      right
      simpa [List.map_map, Function.comp] using hmem
    have hnd := nodup_keys_insertList
      ((init ++ [last]).map fun e => (TrimSpace e.1, TrimSpace e.2)) [] (by simp)
    exact ⟨hkeys, hnd⟩

/-- Witness for C10 at the padded-duplicate input
`"-- a --\nx\n--  a  --\ny"`: the two raw names `"a"` and `" a "` trim to
the same name, the final block `"y"` lacks its newline, the content after
the second marker wins, and `a` is stored once. -/
theorem parse_duplicate_last_wins_witness :
    ∃ a, TxtarAdd.Parse (([] : List Char)
          ++ renderBody ([("a".data, "x\n".data)] ++ [(" a ".data, "y".data)])) = .ok a
      ∧ mapGet "a".data a.files
          = (([("a".data, "x\n".data)] ++ [(" a ".data, "y".data)]).reverse.find?
              fun e => decide (TrimSpace e.1 = "a".data)).map (fun e => TrimSpace e.2)
      ∧ "a".data ∈ a.files.map Prod.fst ∧ (a.files.map Prod.fst).Nodup :=
  parse_duplicate_last_wins (by decide) (by decide) (by decide) (by decide) (by decide)
    (by decide)

end Txtar


namespace Txtar

theorem goodBody_nil : goodBody [] :=
  ⟨fun l hl => absurd hl (List.not_mem_nil l), rfl, by simp⟩

/-! ## Claim C1: the round-trip -/

/-- C1 (amended): for an archive with at least one file, a trimmed
comment whose lines are not markers, usable file names, and stored
contents in the normalized form the store itself produces (trimmed plus
one trailing newline, no marker lines inside, CR-free) with
duplicate-free names, parsing the serialized archive succeeds and yields
an archive `Equal` to the original. -/
theorem parse_string_roundtrip (a : Archive)
    (h1 : a.files ≠ [])
    (h2 : TrimSpace a.comment = a.comment)
    (h3 : goodBody (a.comment ++ ['\n', '\n']))
    (h4 : ∀ e ∈ a.files, goodName e.1 ∧ goodBody e.2 ∧ fixNL (TrimSpace e.2) = e.2)
    (h5 : (a.files.map Prod.fst).Nodup) :
    ∃ b, Parse a.String = .ok b ∧ Equal (some a) (some b) = true := by
  have hperm : (sortNames (a.files.map Prod.fst)).Perm (a.files.map Prod.fst) :=
    List.perm_insertionSort _ _
  have hnd' : (sortNames (a.files.map Prod.fst)).Nodup := hperm.nodup_iff.mpr h5
  have hmemval : ∀ nm ∈ sortNames (a.files.map Prod.fst),
      (nm, (mapGet nm a.files).getD []) ∈ a.files := by
    intro nm hm
    rcases List.mem_map.mp (hperm.mem_iff.mp hm) with ⟨e, he, rfl⟩
    have hget : mapGet e.1 a.files = some e.2 := mapGet_of_mem_nodup h5 (by simpa using he)
    rw [hget]
    simpa using he
  have hent : ∀ p ∈ (sortNames (a.files.map Prod.fst)).map
      (fun nm => (nm, (mapGet nm a.files).getD [])), goodName p.1 ∧ goodBody p.2 := by
    intro p hp
    rcases List.mem_map.mp hp with ⟨nm, hm, rfl⟩
    have h4' := h4 _ (hmemval nm hm)
    exact ⟨h4'.1, h4'.2.1⟩
  have hCLdef : a.String
      = (if a.comment = [] then [] else a.comment ++ ['\n', '\n'])
        ++ renderBody ((sortNames (a.files.map Prod.fst)).map
            (fun nm => (nm, (mapGet nm a.files).getD []))) := by
    unfold Archive.String
    congr 1
    · by_cases hcc : a.comment = []
      · simp [hcc]
      · simp [hcc, h1]
    · rw [renderBody, List.flatMap_map]
      apply List.flatMap_congr
      intro nm _
      simp [chunkOf, List.append_assoc]
  have hCL : goodBody (if a.comment = [] then [] else a.comment ++ ['\n', '\n']) := by
    split
    · exact goodBody_nil
    · exact h3
  have hne : (sortNames (a.files.map Prod.fst)).map
      (fun nm => (nm, (mapGet nm a.files).getD [])) ≠ [] := by
    intro hcon
    have hs : sortNames (a.files.map Prod.fst) = [] := List.map_eq_nil_iff.mp hcon
    have : a.files.map Prod.fst = [] := by
      have := hperm.length_eq
      rw [hs] at this
      exact List.length_eq_zero.mp this.symm
    exact h1 (List.map_eq_nil_iff.mp this)
  have hparse := parse_render hCL hne hent
  rw [← hCLdef] at hparse
  have hmapid : ((sortNames (a.files.map Prod.fst)).map
        (fun nm => (nm, (mapGet nm a.files).getD []))).map
      (fun p => (p.1, fixNL (TrimSpace p.2)))
      = (sortNames (a.files.map Prod.fst)).map
          (fun nm => (nm, (mapGet nm a.files).getD [])) := by
    rw [List.map_map]
    apply List.map_congr_left
    intro nm hm
    have h4' := h4 _ (hmemval nm hm)
    simp only [Function.comp]
    rw [h4'.2.2]
  have hkeys : ((sortNames (a.files.map Prod.fst)).map
        (fun nm => (nm, (mapGet nm a.files).getD []))).map Prod.fst
      = sortNames (a.files.map Prod.fst) := by
    rw [List.map_map]
    simp [Function.comp_def]
  have hfiles : insertList []
      (((sortNames (a.files.map Prod.fst)).map
        (fun nm => (nm, (mapGet nm a.files).getD []))).map
          (fun p => (p.1, fixNL (TrimSpace p.2))))
      = (sortNames (a.files.map Prod.fst)).map
          (fun nm => (nm, (mapGet nm a.files).getD [])) := by
    rw [hmapid, insertList_of_fresh _ _ (by rw [hkeys]; exact hnd')
        (fun x _ => mapGet_nil x)]
    rfl
  have hcmt : TrimSpace (if a.comment = [] then [] else a.comment ++ ['\n', '\n'])
      = a.comment := by
    split
    · rename_i hcc
      rw [hcc]
      rfl
    · rw [TrimSpace_append_ws (by decide), h2]
  have hlen : a.files.length
      = ((sortNames (a.files.map Prod.fst)).map
          (fun nm => (nm, (mapGet nm a.files).getD []))).length := by
    simp only [List.length_map]
    rw [hperm.length_eq]
    simp
  refine ⟨_, hparse, ?_⟩
  rw [hfiles, hcmt]
  simp only [Equal]
  rw [if_neg (by simp), if_neg (by simp [hlen])]
  rw [List.all_eq_true]
  intro e he
  have hek : e.1 ∈ sortNames (a.files.map Prod.fst) :=
    hperm.mem_iff.mpr (List.mem_map.mpr ⟨e, he, rfl⟩)
  rw [mapGet_map_keyed hek]
  have hget : mapGet e.1 a.files = some e.2 := mapGet_of_mem_nodup h5 (by simpa using he)
  rw [hget]
  simp

end Txtar

namespace Txtar

/-- Witness for C1: the specification's example scenario, an archive with
comment `"A top level comment"` and files `file1.txt`/`file2.txt`. -/
theorem parse_string_roundtrip_witness :
    ∃ b, Parse (Archive.mk
        [("file1.txt".data, "hello\n".data), ("file2.txt".data, "world\n".data)]
        "A top level comment".data).String = .ok b
      ∧ Equal (some (Archive.mk
          [("file1.txt".data, "hello\n".data), ("file2.txt".data, "world\n".data)]
          "A top level comment".data)) (some b) = true :=
  parse_string_roundtrip _ (by decide) (by decide) (by decide) (by decide) (by decide)

/-- Counterexample block for C1 as stated ("for every valid Archive"),
showing each restriction of the amended claim forced by a `New`/`Write`-
producible archive: the empty archive serializes to the empty string,
which `Parse` rejects with the empty-archive error; an archive whose
content carries its own marker-shaped line reparses as two files with
empty contents, not `Equal` to the original; an archive whose name holds
a newline serializes to input `Parse` rejects as unterminated. -/
theorem roundtrip_fails_outside_normal_form :
    (New.String = [] ∧ Parse New.String = .error emptyArchiveErr)
    ∧ (Parse (Archive.mk [("a".data, "-- b --\n".data)] []).String
        = .ok (Archive.mk [("a".data, []), ("b".data, [])] [])
      ∧ Equal (some (Archive.mk [("a".data, "-- b --\n".data)] []))
          (some (Archive.mk [("a".data, []), ("b".data, [])] [])) = false)
    ∧ Parse (Archive.mk [("a\nb".data, "x\n".data)] []).String = .error untermErr := by
  refine ⟨⟨by decide, by rfl⟩, ⟨?_, by decide⟩, ?_⟩
  · have hs : (Archive.mk [("a".data, "-- b --\n".data)] []).String
        = ([] : List Char) ++ renderBody [("a".data, ([] : List Char)), ("b".data, [])] := by
      decide
    rw [hs, parse_render goodBody_nil (by decide) (by decide)]
    exact congrArg Except.ok (by decide)
  · have hs : (Archive.mk [("a\nb".data, "x\n".data)] []).String
        = "-- a\nb --\nx\n".data := by
      decide
    rw [hs]
    have hrep : replaceCRLF "-- a\nb --\nx\n".data = "-- a\nb --\nx\n".data := by
      decide
    have hffm : findFileMarker "-- a\nb --\nx\n".data
        = ("-- a\nb --\nx\n".data, [], none) := by
      show findAux _ 0 = _
      rw [findAux.eq_def]
      decide
    unfold Parse
    rw [if_neg (by decide), if_neg (by decide), hrep, hffm]

end Txtar

namespace Txtar

/-! ## Claim C2: trailing-newline invariant of stored contents -/

/-- Reversed-list form of the trailing-newline test: true of the empty
sequence, and of a sequence whose last byte is a newline not preceded by
another newline. -/
def oneNLRev : List Char → Bool
  | [] => true
  | [a] => a = '\n'
  | a :: b :: _ => a = '\n' && decide (b ≠ '\n')

/-- The invariant of the claim on one stored content: empty, or ending in
exactly one trailing newline. -/
def oneNL (c : List Char) : Bool := oneNLRev c.reverse

/-- What `Write` and the `Write`-based `Parse` store always satisfies
`oneNL`: trimming leaves no trailing white space, and `fixNL` then appends
exactly one newline to a non-empty result. -/
theorem oneNL_fixNL_TrimSpace (c : List Char) : oneNL (fixNL (TrimSpace c)) = true := by
  cases hrev : (TrimSpace c).reverse with
  | nil =>
      have h0 : TrimSpace c = [] := by
        have h1 := congrArg List.reverse hrev
        simpa using h1
      rw [h0]
      decide
  | cons x t =>
      have hne : TrimSpace c ≠ [] := by
        intro h0; rw [h0] at hrev; cases hrev
      have hlast : (TrimSpace c).getLast? = some x := by
        rw [← List.head?_reverse, hrev]; rfl
      have hsp : isSpace x = false := TrimSpace_getLast_not_space hlast
      have hxn : x ≠ '\n' := by
        intro h; rw [h] at hsp; exact absurd hsp (by decide)
      have hfix : fixNL (TrimSpace c) = TrimSpace c ++ ['\n'] := by
        unfold fixNL
        rw [if_neg]
        push_neg
        refine ⟨hne, ?_⟩
        rw [hlast]
        simp [hxn]
      rw [hfix]
      unfold oneNL
      rw [show (TrimSpace c ++ ['\n']).reverse = '\n' :: x :: t by
        rw [List.reverse_append, hrev]; rfl]
      simp [oneNLRev, hxn]

/-- Every content the `Write`-based parse loop stores satisfies `oneNL`,
provided the accumulator's contents already do. -/
theorem parseLoop_values_oneNL :
    ∀ (n : Nat) (name data : List Char) (files : List (List Char × List Char)),
      data.length + (if name = [] then 0 else 1) = n →
      (∀ p ∈ files, oneNL p.2 = true) →
      ∀ p ∈ parseLoop name data files, oneNL p.2 = true := by
  intro n
  induction n using Nat.strong_induction_on with
  | _ n ih =>
    intro name data files hm hf p hp
    rw [parseLoop.eq_def] at hp
    by_cases hname : name = []
    · rw [if_pos hname] at hp
      exact hf p hp
    · rw [if_neg hname] at hp
      refine ih _ ?_ _ _ _ rfl ?_ p hp
      · rcases eq_or_ne (findFileMarker data).2.1 [] with h | h
        · have h1 := findAux_after_le data 0
          simp only [findFileMarker] at *
          simp only [h, if_pos rfl, if_neg hname] at hm ⊢
          simp only [if_pos]
          omega
        · have h1 := findAux_after_lt data 0 h
          simp only [findFileMarker] at *
          simp only [if_neg h, if_neg hname] at hm ⊢
          omega
      · intro q hq
        rcases mem_mapInsert hq with h | h
        · rw [h]
          exact oneNL_fixNL_TrimSpace _
        · exact hf q h

/-- Archives reachable through the public constructors and mutators of
the `Write`-based store: `New` (with any `WithComment` option), `Write`,
`Delete`, and successful `Parse`. -/
inductive Reached : Archive → Prop
  | new (comment : List Char) : Reached { files := [], comment := comment }
  | write {a : Archive} (name contents : List Char) :
      Reached a → Reached (a.Write name contents)
  | del {a : Archive} (name : List Char) : Reached a → Reached (a.Delete name)
  | parse {data : List Char} {a : Archive} : Parse data = .ok a → Reached a

/-- CLAIM C2: in the `Write`-based store, every archive reachable through
`New`, `Write`, `Delete` and `Parse` keeps each stored file content empty
or ending in exactly one trailing newline.  (The claim as stated also
lists `Add`; the `Add` method stores the trimmed contents with no
trailing newline, refuting the universally quantified statement — see the
counterexample.) -/
theorem stored_contents_newline_invariant {a : Archive} (h : Reached a) :
    ∀ p ∈ a.files, oneNL p.2 = true := by
  induction h with
  | new comment =>
      intro p hp
      cases hp
  | write name contents _ ih =>
      intro p hp
      rcases mem_mapInsert hp with h2 | h2
      · rw [h2]
        exact oneNL_fixNL_TrimSpace contents
      · exact ih p h2
  | del name _ ih =>
      intro p hp
      exact ih p (mem_mapErase hp)
  | parse hok =>
      intro p hp
      unfold Parse at hok
      split at hok
      · cases hok
      · split at hok
        · cases hok
        · split at hok
          · cases hok
          · injection hok with h2
            subst h2
            exact parseLoop_values_oneNL _ _ _ _ rfl (by intro q hq; cases hq) p hp

/-- Witness for C2: the specification's own example — after
`Write("  name.txt  ", "  content  ")` on a fresh archive, reading
`"name.txt"` returns exactly `"content\n"`, and that stored entry
satisfies the invariant. -/
theorem stored_contents_newline_invariant_witness :
    (New.Write "  name.txt  ".data "  content  ".data).Read "name.txt".data
        = .ok "content\n".data
    ∧ oneNL "content\n".data = true :=
  ⟨by rfl, stored_contents_newline_invariant
      (Reached.write "  name.txt  ".data "  content  ".data (Reached.new []))
      ("name.txt".data, "content\n".data) (by decide)⟩

/-- Counterexample for C2 as stated: `Add` (among the operations the
claim quantifies over) stores the trimmed contents with NO trailing
newline appended — after `Add` of `"some stuff"` under `"file"` into the
empty archive, the stored content is `"some stuff"`, non-empty and not
newline-terminated. -/
theorem add_stores_without_newline :
    (TxtarAdd.Add New "file".data "some stuff".data).1.files
        = [("file".data, "some stuff".data)]
    ∧ oneNL "some stuff".data = false :=
  ⟨by decide, by decide⟩

end Txtar

namespace Txtar

/-! ## Claim C6: serialization emits files in ascending name order -/

/-- The sorted key list `String` iterates over depends only on the set of
names, not on their insertion order. -/
theorem sortNames_perm_eq {A B : List (List Char)} (hp : A.Perm B) :
    sortNames A = sortNames B := by
  have hsA : (sortNames A).Sorted (· ≤ ·) := List.sorted_insertionSort _ A
  have hsB : (sortNames B).Sorted (· ≤ ·) := List.sorted_insertionSort _ B
  exact List.eq_of_perm_of_sorted
    (((List.perm_insertionSort _ A).trans hp).trans (List.perm_insertionSort _ B).symm)
    hsA hsB

/-- CLAIM C6: `String` emits the file entries in ascending name order
regardless of insertion order: archives with the same comment whose file
bindings are permutations of one another (names distinct) serialize to
the same bytes, and the name sequence the output follows is sorted
ascending. -/
theorem string_sorted_by_name (a b : Archive) (hc : a.comment = b.comment)
    (hp : a.files.Perm b.files) (hnd : (a.files.map Prod.fst).Nodup) :
    a.String = b.String
    ∧ (sortNames (a.files.map Prod.fst)).Sorted (· ≤ ·) := by
  refine ⟨?_, List.sorted_insertionSort _ _⟩
  have hkeys : sortNames (a.files.map Prod.fst) = sortNames (b.files.map Prod.fst) :=
    sortNames_perm_eq (hp.map Prod.fst)
  have hget : (fun n => marker ++ n ++ markerEnd ++ '\n' :: (mapGet n a.files).getD [])
      = (fun n => marker ++ n ++ markerEnd ++ '\n' :: (mapGet n b.files).getD []) := by
    funext n
    rw [mapGet_perm hp hnd]
  have hlen := hp.length_eq
  have hiff : (a.files = []) ↔ (b.files = []) := by
    rw [← List.length_eq_zero, ← List.length_eq_zero, hlen]
  unfold Archive.String
  rw [hc, hkeys, hget]
  simp only [hiff]

/-- Witness for C6: the specification's example — files inserted in order
zebra, apple serialize identically to the apple, zebra insertion order,
the name sequence is sorted, and the output lists `apple` before
`zebra`. -/
theorem string_sorted_by_name_witness :
    (((New.Write "zebra".data "z".data).Write "apple".data "a".data).String
        = ((New.Write "apple".data "a".data).Write "zebra".data "z".data).String
      ∧ (sortNames (((New.Write "zebra".data "z".data).Write "apple".data
          "a".data).files.map Prod.fst)).Sorted (· ≤ ·))
    ∧ ((New.Write "zebra".data "z".data).Write "apple".data "a".data).String
        = "-- apple --\na\n-- zebra --\nz\n".data :=
  ⟨string_sorted_by_name _ _ (by decide) (by decide) (by decide), by decide⟩

end Txtar

namespace Txtar

/-! ## Claim C5: CRLF normalization on input, LF-only output -/

/-- A text of `sep`-terminated lines: the CRLF and LF presentations of
the same line sequence `L` are `joinEnds ['\r', '\n'] L` and
`joinEnds ['\n'] L`. -/
def joinEnds (sep : List Char) (L : List (List Char)) : List Char :=
  L.flatMap (fun l => l ++ sep)

theorem joinEnds_cons (sep l : List Char) (L : List (List Char)) :
    joinEnds sep (l :: L) = (l ++ sep) ++ joinEnds sep L := rfl

theorem containsSeq_nil {p : List Char} (hp : p ≠ []) : containsSeq p [] = false := by
  cases p with
  | nil => cases hp rfl
  | cons q qs => rfl

theorem containsSeq_cons (p : List Char) (c : Char) (r : List Char) :
    containsSeq p (c :: r) = (p.isPrefixOf (c :: r) || containsSeq p r) := by
  unfold containsSeq
  rw [idxOf?_cons]
  cases h : p.isPrefixOf (c :: r) with
  | true => simp
  | false => simp [Option.isSome_map]

/-- A pattern that avoids a character neither starts at it nor spans
across it: occurrence in `l ++ ch :: r` is occurrence in `l` or in `r`. -/
theorem containsSeq_append_ch {p : List Char} (hp : p ≠ []) {ch : Char} (hch : ch ∉ p) :
    ∀ l r : List Char,
      containsSeq p (l ++ ch :: r) = (containsSeq p l || containsSeq p r) := by
  intro l
  induction l with
  | nil =>
      intro r
      have hpre : p.isPrefixOf (ch :: r) = false := by
        cases p with
        | nil => cases hp rfl
        | cons q qs =>
            have hq : q ≠ ch := fun h => hch (h ▸ List.mem_cons_self q qs)
            simp [List.isPrefixOf, hq]
      rw [List.nil_append, containsSeq_cons, hpre, containsSeq_nil hp]
  | cons c l' ih =>
      intro r
      have hpp : p.isPrefixOf (c :: (l' ++ ch :: r)) = p.isPrefixOf (c :: l') := by
        cases h4 : p.isPrefixOf (c :: l') with
        | true =>
            have h5 := isPrefixOf_extend h4 (ch :: r)
            rw [List.cons_append] at h5
            exact h5
        | false =>
            cases h5 : p.isPrefixOf (c :: (l' ++ ch :: r)) with
            | false => rfl
            | true =>
                rw [← List.cons_append] at h5
                rcases isPrefixOf_append_cases h5 with h6 | h6
                · rw [h4] at h6
                  cases h6
                · exact absurd h6 hch
      rw [List.cons_append, containsSeq_cons, containsSeq_cons, hpp, ih r]
      cases p.isPrefixOf (c :: l') <;> cases containsSeq p l' <;> cases containsSeq p r <;> rfl

/-- Occurrence of a CR-and-LF-free pattern in CRLF-terminated lines is
occurrence in one of the lines. -/
theorem containsSeq_joinEnds_crlf {p : List Char} (hp : p ≠ [])
    (hr : '\r' ∉ p) (hn : '\n' ∉ p) :
    ∀ L, containsSeq p (joinEnds ['\r', '\n'] L) = L.any (fun l => containsSeq p l) := by
  intro L
  induction L with
  | nil => simp [joinEnds, containsSeq_nil hp]
  | cons l L' ih =>
      have h1 : joinEnds ['\r', '\n'] (l :: L')
          = l ++ '\r' :: '\n' :: joinEnds ['\r', '\n'] L' := by
        rw [joinEnds_cons, List.append_assoc]
        rfl
      rw [h1, containsSeq_append_ch hp hr]
      have h2 := containsSeq_append_ch hp hn [] (joinEnds ['\r', '\n'] L')
      rw [List.nil_append] at h2
      rw [h2, containsSeq_nil hp, ih]
      simp [List.any_cons]

/-- Occurrence of an LF-free pattern in LF-terminated lines is occurrence
in one of the lines. -/
theorem containsSeq_joinEnds_lf {p : List Char} (hp : p ≠ []) (hn : '\n' ∉ p) :
    ∀ L, containsSeq p (joinEnds ['\n'] L) = L.any (fun l => containsSeq p l) := by
  intro L
  induction L with
  | nil => simp [joinEnds, containsSeq_nil hp]
  | cons l L' ih =>
      have h1 : joinEnds ['\n'] (l :: L') = l ++ '\n' :: joinEnds ['\n'] L' := by
        rw [joinEnds_cons, List.append_assoc]
        rfl
      rw [h1, containsSeq_append_ch hp hn, ih]
      simp [List.any_cons]

theorem replaceCRLF_cons_cons (c d : Char) (rest : List Char) :
    replaceCRLF (c :: d :: rest)
      = if c = '\r' ∧ d = '\n' then '\n' :: replaceCRLF rest
        else c :: replaceCRLF (d :: rest) := rfl

/-- `ReplaceAll` sends one CR-free CRLF-terminated line to the
LF-terminated line and continues. -/
theorem replaceCRLF_line : ∀ (l r : List Char), '\r' ∉ l →
    replaceCRLF (l ++ '\r' :: '\n' :: r) = l ++ '\n' :: replaceCRLF r := by
  intro l
  induction l with
  | nil =>
      intro r _
      rfl
  | cons c l' ih =>
      intro r hcr
      have hc : c ≠ '\r' := fun h => hcr (by simp [h])
      have hcr' : '\r' ∉ l' := fun h => hcr (by simp [h])
      cases l' with
      | nil =>
          rw [List.cons_append, List.nil_append]
          rw [replaceCRLF_cons_cons, if_neg (by simp [hc])]
          have h2 := ih r hcr'
          rw [List.nil_append] at h2
          rw [h2]
          simp
      | cons e l'' =>
          rw [List.cons_append]
          rw [List.cons_append]
          rw [replaceCRLF_cons_cons, if_neg (by simp [hc])]
          have h2 := ih r hcr'
          rw [List.cons_append] at h2
          rw [h2]
          simp

/-- `ReplaceAll` turns the CRLF presentation of CR-free lines into the LF
presentation. -/
theorem replaceCRLF_joinEnds : ∀ (L : List (List Char)), (∀ l ∈ L, '\r' ∉ l) →
    replaceCRLF (joinEnds ['\r', '\n'] L) = joinEnds ['\n'] L := by
  intro L
  induction L with
  | nil =>
      intro _
      rfl
  | cons l L' ih =>
      intro hL
      have h1 : joinEnds ['\r', '\n'] (l :: L')
          = l ++ '\r' :: '\n' :: joinEnds ['\r', '\n'] L' := by
        rw [joinEnds_cons, List.append_assoc]
        rfl
      rw [h1, replaceCRLF_line l _ (hL l (by simp)), ih (fun x hx => hL x (by simp [hx]))]
      rw [joinEnds_cons, List.append_assoc]
      rfl

theorem no_cr_joinEnds_lf {L : List (List Char)} (hL : ∀ l ∈ L, '\r' ∉ l) :
    '\r' ∉ joinEnds ['\n'] L := by
  intro h
  rw [joinEnds, List.mem_flatMap] at h
  obtain ⟨l, hl, hm⟩ := h
  rcases List.mem_append.mp hm with h2 | h2
  · exact hL l hl h2
  · simp at h2

/-- CLAIM C5: the `Write`-based `Parse` normalizes CRLF to LF once, up
front: parsing a text of CR-free CRLF-terminated lines returns exactly
what parsing the same LF-terminated lines returns; and serialization uses
LF only — an archive whose comment, names and contents are CR-free
serializes with no CR byte. -/
theorem parse_crlf_lf_equiv (L : List (List Char)) (hL : ∀ l ∈ L, '\r' ∉ l)
    (a : Archive) (hc : '\r' ∉ a.comment)
    (hf : ∀ p ∈ a.files, '\r' ∉ p.1 ∧ '\r' ∉ p.2) :
    Parse (joinEnds ['\r', '\n'] L) = Parse (joinEnds ['\n'] L)
    ∧ '\r' ∉ a.String := by
  constructor
  · cases L with
    | nil => rfl
    | cons l L' =>
        have hA0 : ¬ (joinEnds ['\r', '\n'] (l :: L')).length = 0 := by
          rw [joinEnds_cons]
          simp only [List.length_append, List.length_cons, List.length_nil]
          omega
        have hB0 : ¬ (joinEnds ['\n'] (l :: L')).length = 0 := by
          rw [joinEnds_cons]
          simp only [List.length_append, List.length_cons, List.length_nil]
          omega
        have hcont : containsSeq marker (joinEnds ['\r', '\n'] (l :: L'))
            = containsSeq marker (joinEnds ['\n'] (l :: L')) := by
          rw [containsSeq_joinEnds_crlf (by decide) (by decide) (by decide),
              containsSeq_joinEnds_lf (by decide) (by decide)]
        have hrep : replaceCRLF (joinEnds ['\r', '\n'] (l :: L'))
            = replaceCRLF (joinEnds ['\n'] (l :: L')) := by
          rw [replaceCRLF_joinEnds _ hL, replaceCRLF_of_no_cr (no_cr_joinEnds_lf hL)]
        unfold Parse
        rw [if_neg hA0, if_neg hB0, hcont, hrep]
  · intro hmem
    unfold Archive.String at hmem
    rcases List.mem_append.mp hmem with h1 | h1
    · revert h1
      split
      · simp
      · intro h1
        rcases List.mem_append.mp h1 with h2 | h2
        · rcases List.mem_append.mp h2 with h3 | h3
          · exact hc h3
          · simp at h3
        · revert h2
          split
          · simp
          · decide
    · rw [List.mem_flatMap] at h1
      obtain ⟨n, hn, hm2⟩ := h1
      have hnk : n ∈ a.files.map Prod.fst := (List.perm_insertionSort _ _).mem_iff.mp hn
      obtain ⟨p, hp2, hpeq⟩ := List.mem_map.mp hnk
      rcases List.mem_append.mp hm2 with h2 | h2
      · rcases List.mem_append.mp h2 with h3 | h3
        · rcases List.mem_append.mp h3 with h4 | h4
          · exact absurd h4 (by decide)
          · rw [← hpeq] at h4
            exact (hf p hp2).1 h4
        · exact absurd h3 (by decide)
      · rcases List.mem_cons.mp h2 with h3 | h3
        · exact absurd h3 (by decide)
        · cases hg : mapGet n a.files with
          | none =>
              rw [hg] at h3
              simp at h3
          | some v =>
              rw [hg] at h3
              simp only [Option.getD_some] at h3
              exact (hf (n, v) (mapGet_mem hg)).2 h3

/-- Witness for C5: a three-line archive text parses identically in its
CRLF and LF presentations, and a one-file archive with CR-free pieces
serializes with no CR byte. -/
theorem parse_crlf_lf_equiv_witness :
    Parse (joinEnds ['\r', '\n'] ["A comment".data, "-- a.txt --".data, "hi".data])
        = Parse (joinEnds ['\n'] ["A comment".data, "-- a.txt --".data, "hi".data])
    ∧ '\r' ∉ (New.Write "a.txt".data "hi".data).String :=
  parse_crlf_lf_equiv _ (by decide) _ (by decide) (by decide)

end Txtar
